import Mathlib

/-!
# Verification of the qrmesh v3 protocol core

Shallow embedding of the QR-QUIC v3 protocol (`src/protocol.ts`, second /
current revision) and of the v3 `MeshState` peer manager
(`src/unnamed/part_003`, second / current revision), together with proofs
and refutations of the frozen specification claims.

Wire strings are modelled as `List Char`.  JavaScript numbers, as they
occur in the protocol (integers, plus the `NaN` produced by `Number` on
garbage input), are modelled by `JsNum := Option Int` where `none` plays
the role of `NaN`.  Fractional, exponent or hexadecimal numeric syntax
never occurs in the wire format produced by the encoder and is mapped to
`NaN` as well by the parser model.
-/

namespace QrMesh

/-- A JavaScript number as used by the protocol: an integer, or `NaN`
(modelled as `none`). -/
abbrev JsNum := Option Int

/-- JavaScript strict equality `===` on numbers: `NaN === x` is false. -/
def jsStrictEq (a b : JsNum) : Bool :=
  match a, b with
  | some x, some y => x == y
  | _, _ => false

/-- An inclusive ACK range `[start, end]` (`AckRange` in `protocol.ts`). -/
abbrev AckRange := JsNum × JsNum

/-! ## Decimal rendering and parsing of numbers -/

/-- One decimal digit as a character. -/
def digitChar : Nat → Char
  | 0 => '0' | 1 => '1' | 2 => '2' | 3 => '3' | 4 => '4'
  | 5 => '5' | 6 => '6' | 7 => '7' | 8 => '8' | _ => '9'

/-- Numeric value of a digit character. -/
def digitVal (c : Char) : Nat := c.toNat - 48

/-- Is the character a decimal digit (code points 48-57)? -/
def isDigitCh (c : Char) : Bool := 48 ≤ c.toNat && c.toNat ≤ 57

/-- Fuel-driven most-significant-first decimal rendering. -/
def natToCharsAux : Nat → Nat → List Char
  | 0, _ => []
  | fuel + 1, n =>
    if n < 10 then [digitChar n]
    else natToCharsAux fuel (n / 10) ++ [digitChar (n % 10)]

/-- Decimal rendering of a natural number, as JavaScript string
interpolation of a non-negative integer produces it. -/
def natToChars (n : Nat) : List Char := natToCharsAux (n + 1) n

/-- Rendering of a `JsNum` by JavaScript string interpolation. -/
def showJsNum : JsNum → List Char
  | none => ['N', 'a', 'N']
  | some n => if n < 0 then '-' :: natToChars (-n).toNat else natToChars n.toNat

/-- Value of a digit string (most significant first). -/
def digitsToNat (cs : List Char) : Nat :=
  cs.foldl (fun a c => a * 10 + digitVal c) 0

/-- The JavaScript `Number` conversion, restricted to the syntax that the
protocol's encoder can produce: the empty string converts to `0`, an
optionally `-`-signed digit string to the corresponding integer, and
everything else (in particular anything non-numeric) to `NaN`. -/
def jsNumber (cs : List Char) : JsNum :=
  match cs with
  | [] => some 0
  | c :: rest =>
    if c = '-' then
      if rest ≠ [] ∧ rest.all isDigitCh then some (-(digitsToNat rest : Int)) else none
    else if (c :: rest).all isDigitCh then some (digitsToNat (c :: rest) : Int) else none

/-! ## JavaScript string primitives on `List Char` -/

/-- `indexOf` for a single character: `none` models JavaScript's `-1`. -/
def jsIndexOf (sep : Char) : List Char → Option Nat
  | [] => none
  | c :: rest => if c = sep then some 0 else (jsIndexOf sep rest).map (· + 1)

/-- `s.slice(0, i)` where `i` is an `indexOf` result: with `i = -1`
(`none`) JavaScript drops the last character. -/
def jsSliceTo (cs : List Char) : Option Nat → List Char
  | some i => cs.take i
  | none => cs.take (cs.length - 1)

/-- `s.slice(i + 1)` where `i` is an `indexOf` result: with `i = -1`
(`none`) this is `s.slice(0)`, the whole string. -/
def jsSliceAfter (cs : List Char) : Option Nat → List Char
  | some i => cs.drop (i + 1)
  | none => cs

/-- Prepend a character to the first piece of a split result. -/
def consFirst (c : Char) : List (List Char) → List (List Char)
  | [] => [[c]]
  | h :: t => (c :: h) :: t

/-- JavaScript `String.prototype.split` with a single-character
separator; never returns an empty list, and `"".split(sep) = [""]`. -/
def jsSplit (sep : Char) : List Char → List (List Char)
  | [] => [[]]
  | c :: rest =>
    if c = sep then [] :: jsSplit sep rest else consFirst c (jsSplit sep rest)

/-- `Array.prototype.join(sep)`. -/
def joinSep (sep : Char) : List (List Char) → List Char
  | [] => []
  | [x] => x
  | x :: xs => x ++ sep :: joinSep sep xs

/-! ## Packet model (`protocol.ts`, v3) -/

/-- The four packet type tags of protocol v3. -/
inductive PacketType where
  | B | I | D | A
  deriving DecidableEq, Repr

/-- The parsed packet structure `QRPacket` of protocol v3.  Optional
string fields are `Option (List Char)`; `acks` is absent (`none`) or an
explicit list of ranges.  `mt` is a single character: the TypeScript type
says `'C' | 'O'` but the decoder accepts any uppercase letter there. -/
structure QRPacket where
  v : Int
  t : PacketType
  src : List Char
  dst : List Char
  pn : JsNum
  mt : Option Char := none
  key : Option (List Char) := none
  name : Option (List Char) := none
  payload : Option (List Char) := none
  acks : Option (List AckRange) := none
  deriving DecidableEq, Repr

/-- `PROTOCOL_VERSION` of the v3 wire format. -/
def PROTOCOL_VERSION : Int := 3

/-- `BROADCAST_ADDR`. -/
def BROADCAST_ADDR : List Char := ['*']

/-- `${x || ''}` for an optional string field. -/
def optStr : Option (List Char) → List Char
  | some s => s
  | none => []

/-- `${x || ''}` for the optional one-character `mt` field. -/
def optChar : Option Char → List Char
  | some c => [c]
  | none => []

/-- `s || undefined`: collapse an absent or empty (falsy) string to
`undefined`. -/
def orUndef : Option (List Char) → Option (List Char)
  | some (c :: cs) => some (c :: cs)
  | _ => none

/-- One rendered range of `encodeAcks`: `"7"` or `"9-12"`. -/
def encAckPiece (r : AckRange) : List Char :=
  if jsStrictEq r.1 r.2 then showJsNum r.1 else showJsNum r.1 ++ '-' :: showJsNum r.2

/-- `encodeAcks`: render ACK ranges compactly as `"1-5,7,9-12"`. -/
def encodeAcks (acks : List AckRange) : List Char :=
  joinSep ',' (acks.map encAckPiece)

/-- One comma-separated part of `decodeAcks`.  When the part contains a
dash, `part.split('-')` has at least two pieces, and the destructuring
`[start, end]` reads the first two of them. -/
def decodeAckPart (part : List Char) : AckRange :=
  if '-' ∈ part then
    let ps := jsSplit '-' part
    (jsNumber (ps.getD 0 []), jsNumber (ps.getD 1 []))
  else
    let n := jsNumber part
    (n, n)

/-- `decodeAcks` on a present string argument. -/
def decodeAcksL (s : List Char) : List AckRange :=
  if s = [] then [] else (jsSplit ',' s).map decodeAckPart

/-- `decodeAcks` as called on a possibly-`undefined` argument
(`decodeAcks(parts[2])`): `undefined` is falsy and yields `[]`. -/
def decodeAcksOpt : Option (List Char) → List AckRange
  | none => []
  | some s => decodeAcksL s

/-- `encodePacket`: compact wire form of a packet. -/
def encodePacket (p : QRPacket) : List Char :=
  match p.t with
  | .B => p.src
  | .I =>
    'I' :: (p.src ++ p.dst ++ showJsNum p.pn ++
      '|' :: (optStr p.key ++ '|' :: (optStr p.name ++ '|' :: encodeAcks (p.acks.getD []))))
  | .D =>
    'D' :: (p.src ++ p.dst ++ showJsNum p.pn ++ optChar p.mt ++
      '|' :: (optStr p.payload ++ '|' :: encodeAcks (p.acks.getD [])))
  | .A =>
    'A' :: (p.src ++ p.dst ++ showJsNum p.pn ++ '|' :: encodeAcks (p.acks.getD []))

/-- Is the character in the class `[0-9A-F]`? -/
def isHexUp (c : Char) : Bool := isDigitCh c || (65 ≤ c.toNat && c.toNat ≤ 70)

/-- The beacon test `/^[0-9A-F]{8}$/.test(data)`. -/
def isBeaconStr (cs : List Char) : Bool := cs.length == 8 && cs.all isHexUp

/-- The regex probe `pnAndMt.match(/[A-Z]$/)`: the trailing uppercase
letter, if any. -/
def upperAtEnd (cs : List Char) : Option Char :=
  match cs.getLast? with
  | some c => if 65 ≤ c.toNat && c.toNat ≤ 90 then some c else none
  | none => none

/-- The `INITIAL` branch of `decodePacket`. -/
def decodeInitial (data : List Char) : QRPacket :=
  let src := (data.drop 1).take 8
  let dst := (data.drop 9).take 8
  let rest := data.drop 17
  let pnEnd := jsIndexOf '|' rest
  let pn := jsNumber (jsSliceTo rest pnEnd)
  let parts := jsSplit '|' (jsSliceAfter rest pnEnd)
  { v := PROTOCOL_VERSION, t := .I, src, dst, pn,
    key := orUndef (parts.get? 0), name := orUndef (parts.get? 1),
    acks := some (decodeAcksOpt (parts.get? 2)) }

/-- The `DATA` branch of `decodePacket`. -/
def decodeData (data : List Char) : QRPacket :=
  let src := (data.drop 1).take 8
  let dst := (data.drop 9).take 8
  let rest := data.drop 17
  let pipeIdx := jsIndexOf '|' rest
  let pnAndMt := jsSliceTo rest pipeIdx
  let mt := upperAtEnd pnAndMt
  let pn := jsNumber (if mt.isSome then pnAndMt.dropLast else pnAndMt)
  let parts := jsSplit '|' (jsSliceAfter rest pipeIdx)
  { v := PROTOCOL_VERSION, t := .D, src, dst, pn, mt,
    payload := orUndef (parts.get? 0),
    acks := some (decodeAcksOpt (parts.get? 1)) }

/-- The `ACK` branch of `decodePacket`. -/
def decodeAck (data : List Char) : QRPacket :=
  let src := (data.drop 1).take 8
  let dst := (data.drop 9).take 8
  let rest := data.drop 17
  let pipeIdx := jsIndexOf '|' rest
  let pn := jsNumber (jsSliceTo rest pipeIdx)
  let acks := decodeAcksL (jsSliceAfter rest pipeIdx)
  { v := PROTOCOL_VERSION, t := .A, src, dst, pn, acks := some acks }

/-- `decodePacket`: `none` models the `null` result (`DecodeError`). -/
def decodePacket (data : List Char) : Option QRPacket :=
  if isBeaconStr data then
    some { v := PROTOCOL_VERSION, t := .B, src := data, dst := BROADCAST_ADDR, pn := some 0 }
  else
    match data.head? with
    | some 'I' => some (decodeInitial data)
    | some 'D' => some (decodeData data)
    | some 'A' => some (decodeAck data)
    | _ => none

/-! ## SACK range tracker (`addToAckRanges` and friends) -/

/-- JavaScript `<` on numbers: any comparison against `NaN` is false. -/
def jsLt (a b : JsNum) : Bool :=
  match a, b with
  | some x, some y => x < y
  | _, _ => false

/-- JavaScript `<=` on numbers: any comparison against `NaN` is false. -/
def jsLe (a b : JsNum) : Bool :=
  match a, b with
  | some x, some y => x ≤ y
  | _, _ => false

/-- JavaScript `+` on numbers (`NaN` propagates). -/
def jsAdd (a b : JsNum) : JsNum :=
  match a, b with
  | some x, some y => some (x + y)
  | _, _ => none

/-- JavaScript `-` on numbers (`NaN` propagates). -/
def jsSub (a b : JsNum) : JsNum :=
  match a, b with
  | some x, some y => some (x - y)
  | _, _ => none

/-- `Math.min` (`NaN` propagates). -/
def jsMin (a b : JsNum) : JsNum :=
  match a, b with
  | some x, some y => some (min x y)
  | _, _ => none

/-- `Math.max` (`NaN` propagates). -/
def jsMax (a b : JsNum) : JsNum :=
  match a, b with
  | some x, some y => some (max x y)
  | _, _ => none

/-- One step of the adjacent-range merge loops of `addToAckRanges`: look
at the last accumulated range (`prev`); if the next range starts at or
before `prev`'s end plus one, extend `prev`, otherwise push. -/
def mergeStep (acc : List AckRange) (r : AckRange) : List AckRange :=
  match acc.getLast? with
  | none => [r]
  | some prev =>
    if jsLe r.1 (jsAdd prev.2 (some 1)) then
      acc.dropLast ++ [(prev.1, jsMax prev.2 r.2)]
    else
      acc ++ [r]

/-- The main loop of `addToAckRanges`: scan the existing ranges, inserting
`pn` at its place; once inserted, the remaining ranges are folded in with
`mergeStep` (mirroring the `inserted` branch of the loop). -/
def insertScan (pn : JsNum) (acc : List AckRange) (inserted : Bool) :
    List AckRange → List AckRange × Bool
  | [] => (acc, inserted)
  | (s, e) :: rest =>
    if inserted then
      insertScan pn (mergeStep acc (s, e)) true rest
    else if jsLt pn (jsSub s (some 1)) then
      insertScan pn (acc ++ [(pn, pn), (s, e)]) true rest
    else if jsLe pn (jsAdd e (some 1)) then
      insertScan pn (acc ++ [(jsMin s pn, jsMax e pn)]) true rest
    else
      insertScan pn (acc ++ [(s, e)]) false rest

/-- `addToAckRanges`: insert a packet number into the range list, merging
with adjacent or overlapping ranges; a final pass merges any adjacency
produced by the insertion. -/
def addToAckRanges (ranges : List AckRange) (pn : JsNum) : List AckRange :=
  if ranges.isEmpty then [(pn, pn)]
  else
    let (newRanges, inserted) := insertScan pn [] false ranges
    let newRanges := if inserted then newRanges else newRanges ++ [(pn, pn)]
    newRanges.foldl mergeStep []

/-- `isAcked`: scan the (sorted) ranges for one covering `pn`, with an
early exit once a range starts beyond `pn`. -/
def isAcked (ranges : List AckRange) (pn : JsNum) : Bool :=
  match ranges with
  | [] => false
  | (s, e) :: rest =>
    if jsLe s pn && jsLe pn e then true
    else if jsLt pn s then false
    else isAcked rest pn

/-- `getHighestAcked`: the end of the last range, or `-1`. -/
def getHighestAcked (ranges : List AckRange) : JsNum :=
  match ranges.getLast? with
  | none => some (-1)
  | some r => r.2

/-! ## Chunking (`chunkPacket`, `ChunkAssembler`) -/

/-- `MAX_CHUNK_SIZE`. -/
def MAX_CHUNK_SIZE : Nat := 8

/-- `CHUNK_DATA_SIZE`. -/
def CHUNK_DATA_SIZE : Nat := 4

/-- Base-36 digit character (`0-9A-Z`); for `n ≥ 10` this is
`String.fromCharCode(55 + n)`. -/
def toBase36 (n : Nat) : Char :=
  if n < 10 then digitChar n else Char.ofNat (55 + n)

/-- Base-36 digit value of a character; anything outside `0-9A-Z`
decodes to `0`. -/
def fromBase36 (c : Char) : Nat :=
  if 48 ≤ c.toNat ∧ c.toNat ≤ 57 then c.toNat - 48
  else if 65 ≤ c.toNat ∧ c.toNat ≤ 90 then c.toNat - 55
  else 0

/-- `padEnd(CHUNK_DATA_SIZE, ' ')`. -/
def padTo4 (l : List Char) : List Char := l ++ List.replicate (4 - l.length) ' '

/-- The whitespace stripped by JavaScript `trimEnd`: the ECMAScript
`WhiteSpace` and `LineTerminator` sets (tab, LF, VT, FF, CR, space,
NBSP, Ogham space mark, the U+2000-U+200A spaces, LS, PS, narrow
no-break space, medium mathematical space, ideographic space, and the
BOM U+FEFF). -/
def isJsSpace (c : Char) : Bool :=
  c == ' ' || c == '\t' || c == '\n' || c == '\x0d' || c == '\x0b' || c == '\x0c' ||
  c.toNat == 0xa0 || c.toNat == 0x1680 ||
  (0x2000 ≤ c.toNat && c.toNat ≤ 0x200a) ||
  c.toNat == 0x2028 || c.toNat == 0x2029 || c.toNat == 0x202f ||
  c.toNat == 0x205f || c.toNat == 0x3000 || c.toNat == 0xfeff

/-- JavaScript `trimEnd`. -/
def trimEnd (l : List Char) : List Char := (l.reverse.dropWhile isJsSpace).reverse

/-- `chunkPacket`: split an encoded packet into 8-character chunk frames,
or return it unchanged when it already fits in one frame. -/
def chunkPacket (encoded : List Char) (streamId : Nat) : List (List Char) :=
  if encoded.length ≤ MAX_CHUNK_SIZE then [encoded]
  else
    let totalChunks := (encoded.length + CHUNK_DATA_SIZE - 1) / CHUNK_DATA_SIZE
    let streamChar := toBase36 (streamId % 36)
    (List.range totalChunks).map fun i =>
      let data := padTo4 ((encoded.drop (i * CHUNK_DATA_SIZE)).take CHUNK_DATA_SIZE)
      let flagChar := if i == totalChunks - 1 then 'L' else 'M'
      'F' :: streamChar :: toBase36 i :: flagChar :: data

/-- Parsed chunk metadata. -/
structure Chunk where
  streamId : Nat
  index : Nat
  isLast : Bool
  data : List Char
  deriving DecidableEq, Repr

/-- `parseChunk`: a chunk frame is exactly 8 characters starting with
`'F'`; its data slice is trimmed of trailing padding. -/
def parseChunk : List Char → Option Chunk
  | 'F' :: c1 :: c2 :: c3 :: rest =>
    if rest.length == 4 then
      some ⟨fromBase36 c1, fromBase36 c2, c3 == 'L', trimEnd rest⟩
    else none
  | _ => none

/-- Association-list `get` (JavaScript `Map.get`; `Map` key equality is
SameValueZero, under which `NaN` keys match, so plain decidable equality
on `JsNum` keys is faithful). -/
def assocGet {κ α : Type} [DecidableEq κ] (l : List (κ × α)) (k : κ) : Option α :=
  match l with
  | [] => none
  | (k', v) :: rest => if k' = k then some v else assocGet rest k

/-- Association-list `set` (JavaScript `Map.set`: update in place if the
key is present, else append, preserving insertion order). -/
def assocSet {κ α : Type} [DecidableEq κ] (l : List (κ × α)) (k : κ) (v : α) :
    List (κ × α) :=
  match l with
  | [] => [(k, v)]
  | (k', v') :: rest => if k' = k then (k, v) :: rest else (k', v') :: assocSet rest k v

/-- Association-list `delete` (JavaScript `Map.delete`). -/
def assocDel {κ α : Type} [DecidableEq κ] (l : List (κ × α)) (k : κ) : List (κ × α) :=
  match l with
  | [] => []
  | (k', v) :: rest => if k' = k then rest else (k', v) :: assocDel rest k

/-- The state of a `ChunkAssembler`: per-stream chunk buffers and the
recorded last index of each stream. -/
structure Assembler where
  streams : List (Nat × List (Nat × List Char))
  streamComplete : List (Nat × Nat)
  deriving DecidableEq, Repr

/-- The empty assembler. -/
def Assembler.init : Assembler := ⟨[], []⟩

/-- `ChunkAssembler.addChunk`: store the chunk; when every index
`0..lastIndex` of its stream is present, return the reassembled string
and clear that stream. -/
def addChunk (a : Assembler) (data : List Char) : Assembler × Option (List Char) :=
  match parseChunk data with
  | none => (a, none)
  | some ch =>
    let stream := (assocGet a.streams ch.streamId).getD []
    let stream := assocSet stream ch.index ch.data
    let streams := assocSet a.streams ch.streamId stream
    let complete :=
      if ch.isLast then assocSet a.streamComplete ch.streamId ch.index
      else a.streamComplete
    match assocGet complete ch.streamId with
    | some lastIndex =>
      if (List.range (lastIndex + 1)).all (fun i => (assocGet stream i).isSome) then
        -- every `stream.get(i)` below is present thanks to the check above
        let assembled := ((List.range (lastIndex + 1)).map fun i =>
          (assocGet stream i).getD []).flatten
        (⟨assocDel streams ch.streamId, assocDel complete ch.streamId⟩,
          some (trimEnd assembled))
      else
        (⟨streams, complete⟩, none)
    | none => (⟨streams, complete⟩, none)

/-- Feed a list of frames to the assembler, collecting each call's
result. -/
def feedAll (a : Assembler) : List (List Char) → Assembler × List (Option (List Char))
  | [] => (a, [])
  | f :: fs =>
    let (a', out) := addChunk a f
    let (a'', outs) := feedAll a' fs
    (a'', out :: outs)

/-! ## Mesh state machine (`part_003`, v3 `MeshState`)

Each operation that reads the clock in the source (`Date.now()`) takes the
current time as an explicit `now : Int` parameter.  Cryptographic key
objects are opaque: only the presence of `sharedKey` matters, so it is
modelled as `Option Unit`.  Events are returned as a list in emission
order instead of being pushed through subscribed handlers. -/

/-- `MESSAGE_TYPES.CHAT`. -/
def MessageTypes.CHAT : Char := 'C'

/-- `MESSAGE_TYPES.OFFER`. -/
def MessageTypes.OFFER : Char := 'O'

/-- Delivery status of a sent packet. -/
inductive SentStatus where
  | pending | acked | failed
  deriving DecidableEq, Repr

/-- `SentPacket`: a tracked outbound packet. -/
structure SentPacket where
  packet : QRPacket
  timestamp : Int
  retries : Nat
  status : SentStatus
  deriving DecidableEq, Repr

/-- `OfferPayload` (v3). -/
structure OfferPayload where
  ws : Option (List Char) := none
  rtc : Option (List Char) := none
  ip : Option (List Char) := none
  deriving DecidableEq, Repr

/-- Per-peer state (`Peer` in the v3 mesh). -/
structure Peer where
  id : List Char
  publicKey : Option (List Char) := none
  name : Option (List Char) := none
  sharedKey : Option Unit := none
  lastSeen : Int
  receivedPns : List AckRange := []
  ackedByPeer : List AckRange := []
  nextPn : Nat := 0
  sentPackets : List (JsNum × SentPacket) := []
  offer : Option OfferPayload := none
  deriving DecidableEq, Repr

/-- Direction of a logged packet or chat message. -/
inductive Dir where
  | sent | received
  deriving DecidableEq, Repr

/-- `PacketLogEntry`. -/
structure PacketLogEntry where
  timestamp : Int
  direction : Dir
  packet : QRPacket
  status : Option SentStatus := none
  deriving DecidableEq, Repr

/-- `ChatMessage`. -/
structure ChatMessage where
  peerId : List Char
  direction : Dir
  text : List Char
  timestamp : Int
  encrypted : Bool
  pn : Option Int := none
  deriving DecidableEq, Repr

/-- The mesh events that the operations modelled here can emit. -/
inductive MeshEvent where
  | packet_sent (packet : QRPacket)
  | packet_acked (pn : JsNum) (peerId : List Char)
  | packet_failed (pn : JsNum) (peerId : List Char)
  | chat_message (message : ChatMessage)
  | error (message : List Char)
  deriving DecidableEq, Repr

/-- The state owned by a `MeshState` instance (the key pair is reduced to
the derived `deviceId`; no modelled operation reads the raw keys). -/
structure MeshState where
  deviceId : List Char
  deviceName : Option (List Char) := none
  peers : List (List Char × Peer) := []
  packetLog : List PacketLogEntry := []
  chatHistory : List ChatMessage := []
  globalPn : Nat := 0
  cachedBeacon : Option QRPacket := none
  retryTimeout : Int := 3000
  maxRetries : Nat := 3
  maxLogSize : Nat := 100
  deriving DecidableEq, Repr

/-- Update the (first) entry of an association list at a key. -/
def assocUpdate {κ α : Type} [DecidableEq κ] (l : List (κ × α)) (k : κ) (f : α → α) :
    List (κ × α) :=
  match l with
  | [] => []
  | (k', v) :: rest => if k' = k then (k', f v) :: rest else (k', v) :: assocUpdate rest k f

/-- `createBeaconPacket`: the minimal beacon (id and optional name; the
name is carried in the record even though the wire form drops it). -/
def createBeaconPacket (src : List Char) (name : Option (List Char)) : QRPacket :=
  { v := PROTOCOL_VERSION, t := .B, src, dst := BROADCAST_ADDR, pn := some 0, name }

/-- `createDataPacket`. -/
def createDataPacket (src dst : List Char) (pn : JsNum) (messageType : Char)
    (payload : List Char) (acks : Option (List AckRange)) : QRPacket :=
  { v := PROTOCOL_VERSION, t := .D, src, dst, pn, mt := some messageType,
    payload := some payload, acks }

/-- `logPacket`: append to the packet log, keeping only the newest
`maxLogSize` entries. -/
def logPacket (st : MeshState) (now : Int) (packet : QRPacket) (direction : Dir)
    (status : Option SentStatus) : MeshState :=
  let log := st.packetLog ++ [{ timestamp := now, direction, packet, status }]
  { st with packetLog := if st.maxLogSize < log.length then log.drop (log.length - st.maxLogSize) else log }

/-- `trackSentPacket`: register a freshly queued packet as `pending` in
its peer's sent table and log it. -/
def trackSentPacket (st : MeshState) (now : Int) (peerId : List Char) (packet : QRPacket) :
    MeshState :=
  let record : SentPacket := { packet, timestamp := now, retries := 0, status := .pending }
  let st := { st with
    peers := assocUpdate st.peers peerId fun p =>
      { p with sentPackets := assocSet p.sentPackets packet.pn record } }
  logPacket st now packet .sent (some .pending)

/-- `sendChat`: send raw text as payload (the source deliberately sends
plaintext, "encryption disabled for QR size"); returns the events emitted
and the allocated packet number (`-1` on unknown peer). -/
def sendChat (st : MeshState) (now : Int) (peerId text : List Char) :
    MeshState × List MeshEvent × Int :=
  match assocGet st.peers peerId with
  | none => (st, [.error ("Unknown peer: ".toList ++ peerId)], -1)
  | some peer =>
    let pn := st.globalPn
    let st := { st with globalPn := pn + 1 }
    let acks := if 0 < peer.receivedPns.length then some peer.receivedPns else none
    let packet := createDataPacket st.deviceId peerId (some (pn : Int)) MessageTypes.CHAT text acks
    let st := trackSentPacket st now peerId packet
    let message : ChatMessage :=
      { peerId, direction := .sent, text, timestamp := now, encrypted := false,
        pn := some (pn : Int) }
    let st := { st with chatHistory := st.chatHistory ++ [message] }
    (st, [.packet_sent packet, .chat_message message], (pn : Int))

/-- Stamp matching packet-log entries with a new delivery status
(the `packetLog.forEach` bodies of `processAcks` and `checkRetries`). -/
def markLog (log : List PacketLogEntry) (pn : JsNum) (dst : List Char)
    (status : SentStatus) : List PacketLogEntry :=
  log.map fun e =>
    if jsStrictEq e.packet.pn pn && e.packet.dst == dst then { e with status := some status }
    else e

/-- The packet numbers visited by `for (let pn = start; pn <= end; pn++)`
(empty when a bound is `NaN` or the range is reversed). -/
def ackPns (s e : JsNum) : List JsNum :=
  match s, e with
  | some sv, some ev => (List.range (ev - sv + 1).toNat).map fun i => some (sv + i)
  | _, _ => []

/-- One packet number of an inbound SACK range: mark a matching `pending`
entry as `acked`, emit `packet_acked` and update the log. -/
def ackOne (peerId : List Char) (sp : List (JsNum × SentPacket))
    (log : List PacketLogEntry) (pn : JsNum) :
    List (JsNum × SentPacket) × List PacketLogEntry × List MeshEvent :=
  match assocGet sp pn with
  | some sent =>
    if sent.status = .pending then
      (assocSet sp pn { sent with status := .acked }, markLog log pn peerId .acked,
        [.packet_acked pn peerId])
    else (sp, log, [])
  | none => (sp, log, [])

/-- Process the packet numbers of one SACK range in order. -/
def ackPnsRun (peerId : List Char) (pns : List JsNum) (sp : List (JsNum × SentPacket))
    (log : List PacketLogEntry) :
    List (JsNum × SentPacket) × List PacketLogEntry × List MeshEvent :=
  match pns with
  | [] => (sp, log, [])
  | pn :: rest =>
    let (sp', log', evs) := ackOne peerId sp log pn
    let (sp'', log'', evs') := ackPnsRun peerId rest sp' log'
    (sp'', log'', evs ++ evs')

/-- Process a list of SACK ranges in order. -/
def ackRangesRun (peerId : List Char) (acks : List AckRange)
    (sp : List (JsNum × SentPacket)) (log : List PacketLogEntry) :
    List (JsNum × SentPacket) × List PacketLogEntry × List MeshEvent :=
  match acks with
  | [] => (sp, log, [])
  | r :: rest =>
    let (sp', log', evs) := ackPnsRun peerId (ackPns r.1 r.2) sp log
    let (sp'', log'', evs') := ackRangesRun peerId rest sp' log'
    (sp'', log'', evs ++ evs')

/-- `processAcks`: transition every covered `pending` sent packet of the
peer to `acked`, then replace the peer's `ackedByPeer` set with the new
ranges (last-write-wins). -/
def processAcks (st : MeshState) (peerId : List Char) (acks : List AckRange) :
    MeshState × List MeshEvent :=
  match assocGet st.peers peerId with
  | none => (st, [])
  | some peer =>
    let (sp, log, evs) := ackRangesRun peer.id acks peer.sentPackets st.packetLog
    ({ st with
        peers := assocUpdate st.peers peerId fun p =>
          { p with sentPackets := sp, ackedByPeer := acks },
        packetLog := log }, evs)

/-- The sweep of one peer's sent table in `checkRetries`. -/
def checkSent (now timeoutv : Int) (maxR : Nat) (peerId : List Char)
    (sp : List (JsNum × SentPacket)) (log : List PacketLogEntry) :
    List (JsNum × SentPacket) × List PacketLogEntry × List MeshEvent :=
  match sp with
  | [] => ([], log, [])
  | (pn, sent) :: rest =>
    if sent.status = .pending ∧ timeoutv < now - sent.timestamp ∧ maxR ≤ sent.retries then
      let log := markLog log pn peerId .failed
      let (rest', log', evs) := checkSent now timeoutv maxR peerId rest log
      ((pn, { sent with status := .failed }) :: rest', log', .packet_failed pn peerId :: evs)
    else
      let (rest', log', evs) := checkSent now timeoutv maxR peerId rest log
      ((pn, sent) :: rest', log', evs)

/-- The sweep of all peers in `checkRetries`. -/
def checkPeers (now timeoutv : Int) (maxR : Nat) (peers : List (List Char × Peer))
    (log : List PacketLogEntry) :
    List (List Char × Peer) × List PacketLogEntry × List MeshEvent :=
  match peers with
  | [] => ([], log, [])
  | (k, peer) :: rest =>
    let (sp', log', evs) := checkSent now timeoutv maxR peer.id peer.sentPackets log
    let (rest', log'', evs') := checkPeers now timeoutv maxR rest log'
    ((k, { peer with sentPackets := sp' }) :: rest', log'', evs ++ evs')

/-- `checkRetries`: any `pending` entry older than the retry timeout with
its retry budget exhausted is moved to `failed`, raising `packet_failed`. -/
def checkRetries (st : MeshState) (now : Int) : MeshState × List MeshEvent :=
  let (peers', log', evs) := checkPeers now st.retryTimeout st.maxRetries st.peers st.packetLog
  ({ st with peers := peers', packetLog := log' }, evs)

/-- `markPacketDisplayed`: refresh the display timestamp and count one
retry for a `pending` sent packet that was actually shown. -/
def markPacketDisplayed (st : MeshState) (now : Int) (packet : QRPacket) : MeshState :=
  match assocGet st.peers packet.dst with
  | none => st
  | some peer =>
    match assocGet peer.sentPackets packet.pn with
    | some sent =>
      if sent.status = .pending then
        let sent' := { sent with timestamp := now, retries := sent.retries + 1 }
        { st with peers := assocUpdate st.peers packet.dst fun p =>
            { p with sentPackets := assocSet p.sentPackets packet.pn sent' } }
      else st
    | none => st

/-- `createBeacon`: the cached minimal beacon, created on first use. -/
def createBeacon (st : MeshState) : QRPacket × MeshState :=
  match st.cachedBeacon with
  | some b => (b, st)
  | none =>
    let b := createBeaconPacket st.deviceId st.deviceName
    (b, { st with cachedBeacon := some b })

/-- The retransmission-due test of priority 1 in `getOutgoingPackets`. -/
def retryDueCond (now timeoutv : Int) (maxR : Nat) (sent : SentPacket) : Bool :=
  sent.status == .pending && timeoutv < now - sent.timestamp && sent.retries < maxR

/-- The fresh-pending test of priority 2 in `getOutgoingPackets`. -/
def freshCond (now timeoutv : Int) (sent : SentPacket) : Bool :=
  sent.status == .pending && now - sent.timestamp ≤ timeoutv

/-- Scan one peer's sent table, pushing the packets of matching records
and returning early (`true`) once `maxPackets` is reached. -/
def scanPeer (maxPackets : Nat) (pred : SentPacket → Bool)
    (sp : List (JsNum × SentPacket)) (acc : List QRPacket) : List QRPacket × Bool :=
  match sp with
  | [] => (acc, false)
  | (_, sent) :: rest =>
    if pred sent then
      let acc' := acc ++ [sent.packet]
      if maxPackets ≤ acc'.length then (acc', true) else scanPeer maxPackets pred rest acc'
    else scanPeer maxPackets pred rest acc

/-- Scan all peers' sent tables with `scanPeer`. -/
def scanSent (maxPackets : Nat) (pred : SentPacket → Bool)
    (peers : List (List Char × Peer)) (acc : List QRPacket) : List QRPacket × Bool :=
  match peers with
  | [] => (acc, false)
  | (_, peer) :: rest =>
    match scanPeer maxPackets pred peer.sentPackets acc with
    | (acc', true) => (acc', true)
    | (acc', false) => scanSent maxPackets pred rest acc'

/-- `getOutgoingPackets`: retransmission-due packets first, then fresh
pending packets, then (if nothing was collected) the cached beacon.  The
state component of the result only changes when the beacon cache is
filled. -/
def getOutgoingPackets (st : MeshState) (now : Int) (maxPackets : Nat) :
    List QRPacket × MeshState :=
  match scanSent maxPackets (retryDueCond now st.retryTimeout st.maxRetries) st.peers [] with
  | (packets, true) => (packets, st)
  | (packets, false) =>
    match scanSent maxPackets (freshCond now st.retryTimeout) st.peers packets with
    | (packets, true) => (packets, st)
    | (packets, false) =>
      if packets.isEmpty then
        let (b, st') := createBeacon st
        ([b], st')
      else (packets, st)

/-! ## Toolkit: decimal rendering round trip -/

theorem digitVal_digitChar {d : Nat} (h : d < 10) : digitVal (digitChar d) = d := by
  interval_cases d <;> decide

theorem isDigitCh_digitChar {d : Nat} (h : d < 10) : isDigitCh (digitChar d) = true := by
  interval_cases d <;> decide

theorem digitsToNat_append (cs : List Char) (c : Char) :
    digitsToNat (cs ++ [c]) = digitsToNat cs * 10 + digitVal c := by
  simp [digitsToNat, List.foldl_append]

theorem natToCharsAux_spec :
    ∀ fuel n, n < fuel →
      natToCharsAux fuel n ≠ [] ∧ (natToCharsAux fuel n).all isDigitCh = true ∧
        digitsToNat (natToCharsAux fuel n) = n := by
  intro fuel
  induction fuel with
  | zero => omega
  | succ fuel ih =>
    intro n hn
    by_cases h10 : n < 10
    · refine ⟨by simp [natToCharsAux, h10], ?_, ?_⟩
      · simp [natToCharsAux, h10, isDigitCh_digitChar h10]
      · simp [natToCharsAux, h10, digitsToNat]
        exact digitVal_digitChar h10
    · have hdivlt : n / 10 < fuel := by
        have := Nat.div_lt_self (by omega : 0 < n) (by omega : 1 < 10)
        omega
      obtain ⟨h1, h2, h3⟩ := ih (n / 10) hdivlt
      have hmod : n % 10 < 10 := Nat.mod_lt _ (by omega)
      refine ⟨by simp [natToCharsAux, h10], ?_, ?_⟩
      · simp only [natToCharsAux, if_neg h10, List.all_append, h2, Bool.true_and,
          List.all_cons, List.all_nil, Bool.and_true]
        exact isDigitCh_digitChar hmod
      · simp only [natToCharsAux, if_neg h10, digitsToNat_append, h3,
          digitVal_digitChar hmod]
        omega

theorem natToChars_ne_nil (n : Nat) : natToChars n ≠ [] :=
  (natToCharsAux_spec (n + 1) n (by omega)).1

theorem natToChars_all_digits (n : Nat) : (natToChars n).all isDigitCh = true :=
  (natToCharsAux_spec (n + 1) n (by omega)).2.1

theorem digitsToNat_natToChars (n : Nat) : digitsToNat (natToChars n) = n :=
  (natToCharsAux_spec (n + 1) n (by omega)).2.2

theorem toNat_of_isDigitCh {c : Char} (h : isDigitCh c = true) :
    48 ≤ c.toNat ∧ c.toNat ≤ 57 := by
  simpa [isDigitCh] using h

theorem isDigitCh_ne_of_toNat {c d : Char} (h : isDigitCh c = true)
    (hd : d.toNat < 48 ∨ 57 < d.toNat) : c ≠ d := by
  intro he
  obtain ⟨h1, h2⟩ := toNat_of_isDigitCh h
  rw [he] at h1 h2
  omega

theorem digits_no_dash {cs : List Char} (h : cs.all isDigitCh = true) : '-' ∉ cs := by
  intro hm
  have := List.all_eq_true.mp h _ hm
  exact isDigitCh_ne_of_toNat this (by decide) rfl

theorem digits_no_pipe {cs : List Char} (h : cs.all isDigitCh = true) : '|' ∉ cs := by
  intro hm
  have := List.all_eq_true.mp h _ hm
  exact isDigitCh_ne_of_toNat this (by decide) rfl

theorem digits_no_comma {cs : List Char} (h : cs.all isDigitCh = true) : ',' ∉ cs := by
  intro hm
  have := List.all_eq_true.mp h _ hm
  exact isDigitCh_ne_of_toNat this (by decide) rfl

theorem jsNumber_digits {cs : List Char} (hne : cs ≠ [])
    (hd : cs.all isDigitCh = true) : jsNumber cs = some (digitsToNat cs : Int) := by
  match cs, hne with
  | c :: rest, _ =>
    have hc : isDigitCh c = true := by
      have hd' := hd
      simp only [List.all_cons, Bool.and_eq_true] at hd'
      exact hd'.1
    have hcd : c ≠ '-' := isDigitCh_ne_of_toNat hc (by decide)
    simp [jsNumber, hcd, hd]

theorem jsNumber_natToChars (n : Nat) : jsNumber (natToChars n) = some (n : Int) := by
  rw [jsNumber_digits (natToChars_ne_nil n) (natToChars_all_digits n),
    digitsToNat_natToChars]

theorem showJsNum_nonneg {k : Int} (hk : 0 ≤ k) :
    showJsNum (some k) = natToChars k.toNat := by
  simp [showJsNum, Int.not_lt.mpr hk]

theorem jsNumber_showJsNum {k : Int} (hk : 0 ≤ k) :
    jsNumber (showJsNum (some k)) = some k := by
  rw [showJsNum_nonneg hk, jsNumber_natToChars, Int.toNat_of_nonneg hk]

/-! ## Toolkit: indexOf, split, join -/

theorem jsIndexOf_append_cons {sep : Char} {a : List Char} (ha : sep ∉ a) (b : List Char) :
    jsIndexOf sep (a ++ sep :: b) = some a.length := by
  induction a with
  | nil => simp [jsIndexOf]
  | cons c a ih =>
    have hc : c ≠ sep := fun h => ha (h ▸ List.mem_cons_self c a)
    have ha' : sep ∉ a := fun h => ha (List.mem_cons_of_mem _ h)
    simp [jsIndexOf, hc, ih ha']

theorem jsSplit_of_not_mem {sep : Char} {a : List Char} (ha : sep ∉ a) :
    jsSplit sep a = [a] := by
  induction a with
  | nil => rfl
  | cons c a ih =>
    have hc : c ≠ sep := fun h => ha (h ▸ List.mem_cons_self c a)
    have ha' : sep ∉ a := fun h => ha (List.mem_cons_of_mem _ h)
    simp [jsSplit, hc, ih ha', consFirst]

theorem jsSplit_append_cons {sep : Char} {a : List Char} (ha : sep ∉ a) (b : List Char) :
    jsSplit sep (a ++ sep :: b) = a :: jsSplit sep b := by
  induction a with
  | nil => simp [jsSplit]
  | cons c a ih =>
    have hc : c ≠ sep := fun h => ha (h ▸ List.mem_cons_self c a)
    have ha' : sep ∉ a := fun h => ha (List.mem_cons_of_mem _ h)
    simp [jsSplit, hc, ih ha', consFirst]

theorem joinSep_ne_nil_of_head {sep : Char} {p : List Char} {ps : List (List Char)}
    (hp : p ≠ []) : joinSep sep (p :: ps) ≠ [] := by
  cases ps with
  | nil => simpa [joinSep] using hp
  | cons q qs => simp [joinSep]

theorem jsSplit_joinSep {sep : Char} :
    ∀ {ps : List (List Char)}, ps ≠ [] → (∀ p ∈ ps, sep ∉ p) →
      jsSplit sep (joinSep sep ps) = ps := by
  intro ps
  induction ps with
  | nil => intro h; exact absurd rfl h
  | cons p ps ih =>
    intro _ hall
    cases ps with
    | nil => simpa [joinSep] using jsSplit_of_not_mem (hall p (by simp))
    | cons q qs =>
      have : joinSep sep (p :: q :: qs) = p ++ sep :: joinSep sep (q :: qs) := rfl
      rw [this, jsSplit_append_cons (hall p (by simp)),
        ih (by simp) (fun r hr => hall r (List.mem_cons_of_mem _ hr))]

/-! ## Toolkit: ACK range list round trip -/

/-- Validity of an ACK range list for encoding: every bound is a
non-negative integer. -/
def validAckList (l : List AckRange) : Bool :=
  l.all fun r =>
    match r.1, r.2 with
    | some a, some b => decide (0 ≤ a) && decide (0 ≤ b)
    | _, _ => false

theorem getLast?_digit {cs : List Char} (hne : cs ≠ []) (hd : cs.all isDigitCh = true) :
    ∃ d, cs.getLast? = some d ∧ isDigitCh d = true :=
  ⟨cs.getLast hne, List.getLast?_eq_getLast_of_ne_nil hne,
    List.all_eq_true.mp hd _ (List.getLast_mem hne)⟩

theorem mem_encAckPiece {a b : Int} (ha : 0 ≤ a) (hb : 0 ≤ b) {c : Char}
    (hc : c ∈ encAckPiece (some a, some b)) : isDigitCh c = true ∨ c = '-' := by
  unfold encAckPiece at hc
  split at hc
  · rw [showJsNum_nonneg ha] at hc
    exact Or.inl (List.all_eq_true.mp (natToChars_all_digits _) _ hc)
  · rw [show ((some a, some b) : AckRange).1 = some a from rfl,
      show ((some a, some b) : AckRange).2 = some b from rfl,
      showJsNum_nonneg ha, showJsNum_nonneg hb] at hc
    rcases List.mem_append.mp hc with h | h
    · exact Or.inl (List.all_eq_true.mp (natToChars_all_digits _) _ h)
    · rcases List.mem_cons.mp h with h | h
      · exact Or.inr h
      · exact Or.inl (List.all_eq_true.mp (natToChars_all_digits _) _ h)

theorem encAckPiece_ne_nil {a b : Int} (ha : 0 ≤ a) :
    encAckPiece (some a, some b) ≠ [] := by
  unfold encAckPiece
  split
  · rw [showJsNum_nonneg ha]; exact natToChars_ne_nil _
  · rw [show ((some a, some b) : AckRange).1 = some a from rfl, showJsNum_nonneg ha]
    intro h
    exact natToChars_ne_nil a.toNat (List.append_eq_nil.mp h).1

theorem decodeAckPart_encAckPiece {a b : Int} (ha : 0 ≤ a) (hb : 0 ≤ b) :
    decodeAckPart (encAckPiece (some a, some b)) = (some a, some b) := by
  unfold encAckPiece
  by_cases hab : a = b
  · rw [if_pos (by simp [jsStrictEq, hab])]
    rw [showJsNum_nonneg ha]
    have hnd : '-' ∉ natToChars a.toNat := digits_no_dash (natToChars_all_digits _)
    rw [decodeAckPart, if_neg hnd]
    subst hab
    simp [jsNumber_natToChars, Int.toNat_of_nonneg ha]
  · rw [if_neg (by simp [jsStrictEq, hab])]
    rw [show ((some a, some b) : AckRange).1 = some a from rfl,
      show ((some a, some b) : AckRange).2 = some b from rfl,
      showJsNum_nonneg ha, showJsNum_nonneg hb]
    have hnda : '-' ∉ natToChars a.toNat := digits_no_dash (natToChars_all_digits _)
    have hndb : '-' ∉ natToChars b.toNat := digits_no_dash (natToChars_all_digits _)
    have hmem : '-' ∈ natToChars a.toNat ++ '-' :: natToChars b.toNat := by
      exact List.mem_append.mpr (Or.inr (List.mem_cons_self _ _))
    rw [decodeAckPart, if_pos hmem, jsSplit_append_cons hnda, jsSplit_of_not_mem hndb]
    simp [jsNumber_natToChars, Int.toNat_of_nonneg ha, Int.toNat_of_nonneg hb]

theorem validAckList_bounds {l : List AckRange} (hv : validAckList l = true) {r : AckRange}
    (hr : r ∈ l) : ∃ a b : Int, r = (some a, some b) ∧ 0 ≤ a ∧ 0 ≤ b := by
  have := List.all_eq_true.mp hv r hr
  obtain ⟨x, y⟩ := r
  match x, y with
  | some a, some b =>
    simp only [Bool.and_eq_true, decide_eq_true_eq] at this
    exact ⟨a, b, rfl, this.1, this.2⟩

theorem mem_joinSep {sep : Char} {c : Char} :
    ∀ {ps : List (List Char)}, c ∈ joinSep sep ps → c = sep ∨ ∃ p ∈ ps, c ∈ p := by
  intro ps
  induction ps with
  | nil => intro h; cases h
  | cons p ps ih =>
    intro h
    cases ps with
    | nil =>
      exact Or.inr ⟨p, by simp, by simpa [joinSep] using h⟩
    | cons q qs =>
      have : joinSep sep (p :: q :: qs) = p ++ sep :: joinSep sep (q :: qs) := rfl
      rw [this] at h
      rcases List.mem_append.mp h with h | h
      · exact Or.inr ⟨p, by simp, h⟩
      · rcases List.mem_cons.mp h with h | h
        · exact Or.inl h
        · rcases ih h with h | ⟨r, hr, hcr⟩
          · exact Or.inl h
          · exact Or.inr ⟨r, List.mem_cons_of_mem _ hr, hcr⟩

theorem encodeAcks_no_pipe {l : List AckRange} (hv : validAckList l = true) :
    '|' ∉ encodeAcks l := by
  intro h
  rcases mem_joinSep h with h | ⟨p, hp, hcp⟩
  · cases h
  · obtain ⟨r, hr, rfl⟩ := List.mem_map.mp hp
    obtain ⟨a, b, rfl, ha, hb⟩ := validAckList_bounds hv hr
    rcases mem_encAckPiece ha hb hcp with h | h
    · exact isDigitCh_ne_of_toNat h (by decide) rfl
    · cases h

theorem encodeAcks_no_comma_piece {l : List AckRange} (hv : validAckList l = true) :
    ∀ p ∈ l.map encAckPiece, ',' ∉ p := by
  intro p hp hc
  obtain ⟨r, hr, rfl⟩ := List.mem_map.mp hp
  obtain ⟨a, b, rfl, ha, hb⟩ := validAckList_bounds hv hr
  rcases mem_encAckPiece ha hb hc with h | h
  · exact isDigitCh_ne_of_toNat h (by decide) rfl
  · cases h

theorem decodeAcksL_encodeAcks {l : List AckRange} (hv : validAckList l = true) :
    decodeAcksL (encodeAcks l) = l := by
  cases l with
  | nil => rfl
  | cons r rest =>
    obtain ⟨a, b, hr, ha, hb⟩ := validAckList_bounds hv (List.mem_cons_self r rest)
    have hne : encodeAcks (r :: rest) ≠ [] := by
      unfold encodeAcks
      rw [List.map_cons]
      exact joinSep_ne_nil_of_head (hr ▸ encAckPiece_ne_nil ha)
    rw [decodeAcksL, if_neg hne]
    unfold encodeAcks
    rw [jsSplit_joinSep (by simp) (encodeAcks_no_comma_piece hv), List.map_map]
    have : ∀ x ∈ r :: rest, (decodeAckPart ∘ encAckPiece) x = x := by
      intro x hx
      obtain ⟨a', b', rfl, ha', hb'⟩ := validAckList_bounds hv hx
      exact decodeAckPart_encAckPiece ha' hb'
    rw [List.map_congr_left this]
    simp

/-! ## Validity of packets for the encoding round trip -/

/-- A string field is fit for the pipe-delimited wire form: absent, or
non-empty without an embedded `'|'` (an empty string would be collapsed
to `undefined` on decode, and a pipe would shift the fields). -/
def validStrOpt : Option (List Char) → Bool
  | none => true
  | some s => decide (s ≠ []) && decide ('|' ∉ s)

/-- A packet number fit for the wire form: a non-negative integer. -/
def validPn : JsNum → Bool
  | some k => decide (0 ≤ k)
  | none => false

/-- A message-type tag fit for the wire form: absent or an uppercase
letter (the decoder recognises `mt` by the regex `[A-Z]$`). -/
def validMt : Option Char → Bool
  | none => true
  | some c => decide (65 ≤ c.toNat) && decide (c.toNat ≤ 90)

/-- An `acks` field fit for the wire form: an explicit (possibly empty)
list of non-negative ranges.  An absent `acks` cannot round-trip because
the decoder always materialises the field as a list. -/
def validAcksOpt : Option (List AckRange) → Bool
  | some l => validAckList l
  | none => false

/-- Well-formedness of a packet for the encode/decode round trip: 8-char
device ids (the beacon's source all uppercase hex), protocol version 3, a
non-negative integer packet number, pipe-free non-empty optional strings,
explicit non-negative ACK ranges, and exactly the fields of its type
populated (in particular a beacon carries no name, since the beacon wire
form is the bare device id). -/
def validPacket (p : QRPacket) : Bool :=
  decide (p.v = PROTOCOL_VERSION) && decide (p.src.length = 8) &&
  match p.t with
  | .B => p.src.all isHexUp && decide (p.dst = BROADCAST_ADDR) && decide (p.pn = some 0) &&
      decide (p.mt = none) && decide (p.key = none) && decide (p.name = none) &&
      decide (p.payload = none) && decide (p.acks = none)
  | .I => decide (p.dst.length = 8) && validPn p.pn && decide (p.mt = none) &&
      decide (p.payload = none) && validStrOpt p.key && validStrOpt p.name &&
      validAcksOpt p.acks
  | .D => decide (p.dst.length = 8) && validPn p.pn && validMt p.mt &&
      decide (p.key = none) && decide (p.name = none) && validStrOpt p.payload &&
      validAcksOpt p.acks
  | .A => decide (p.dst.length = 8) && validPn p.pn && decide (p.mt = none) &&
      decide (p.key = none) && decide (p.name = none) && decide (p.payload = none) &&
      validAcksOpt p.acks

theorem validStrOpt_no_pipe {o : Option (List Char)} (h : validStrOpt o = true) :
    '|' ∉ optStr o := by
  cases o with
  | none => simp [optStr]
  | some s =>
    simp only [validStrOpt, Bool.and_eq_true, decide_eq_true_eq] at h
    exact h.2

theorem orUndef_optStr {o : Option (List Char)} (h : validStrOpt o = true) :
    orUndef (some (optStr o)) = o := by
  cases o with
  | none => rfl
  | some s =>
    cases s with
    | nil => simp [validStrOpt] at h
    | cons c cs => rfl

/-! ### Positional slices of a non-beacon frame -/

theorem slice_src {src dst rest : List Char} (h8s : src.length = 8) (tag : Char) :
    (((tag :: (src ++ (dst ++ rest))).drop 1).take 8) = src := by
  show (src ++ (dst ++ rest)).take 8 = src
  rw [← h8s]
  exact List.take_left src _

theorem slice_dst {src dst rest : List Char} (h8s : src.length = 8) (h8d : dst.length = 8)
    (tag : Char) : (((tag :: (src ++ (dst ++ rest))).drop 9).take 8) = dst := by
  show ((src ++ (dst ++ rest)).drop 8).take 8 = dst
  have h1 : (src ++ (dst ++ rest)).drop 8 = dst ++ rest := by
    rw [← h8s]; exact List.drop_left _ _
  rw [h1, ← h8d]
  exact List.take_left dst rest

theorem slice_rest {src dst rest : List Char} (h8s : src.length = 8) (h8d : dst.length = 8)
    (tag : Char) : ((tag :: (src ++ (dst ++ rest))).drop 17) = rest := by
  show (src ++ (dst ++ rest)).drop 16 = rest
  have h16 : (16 : Nat) = src.length + 8 := by omega
  rw [h16, List.drop_append, ← h8d, List.drop_left]

theorem length_frame {src dst rest : List Char} (h8s : src.length = 8)
    (h8d : dst.length = 8) (tag : Char) :
    (tag :: (src ++ (dst ++ rest))).length = 17 + rest.length := by
  simp [h8s, h8d]
  omega

theorem notBeacon_frame {src dst rest : List Char} (h8s : src.length = 8)
    (h8d : dst.length = 8) (tag : Char) :
    isBeaconStr (tag :: (src ++ (dst ++ rest))) = false := by
  unfold isBeaconStr
  rw [length_frame h8s h8d]
  have : (17 + rest.length == 8) = false := by
    apply Bool.eq_false_iff.mpr
    intro hcontra
    have := beq_iff_eq.mp hcontra
    omega
  rw [this, Bool.false_and]

theorem jsSliceAfter_append {a b : List Char} :
    jsSliceAfter (a ++ sep :: b) (some a.length) = b := by
  show (a ++ sep :: b).drop (a.length + 1) = b
  have : a ++ sep :: b = (a ++ [sep]) ++ b := by simp
  rw [this, show a.length + 1 = (a ++ [sep]).length by simp, List.drop_left]

theorem jsSliceTo_append {a b : List Char} (sep : Char) :
    jsSliceTo (a ++ sep :: b) (some a.length) = a := by
  show (a ++ sep :: b).take a.length = a
  exact List.take_left a _

theorem upperAtEnd_some {cs : List Char} {d : Char} (h : cs.getLast? = some d) :
    upperAtEnd cs =
      if (decide (65 ≤ d.toNat) && decide (d.toNat ≤ 90)) = true then some d else none := by
  unfold upperAtEnd
  rw [h]

/-- Claim C1 support: the encode/decode round trip for well-formed
packets. -/
theorem decode_encode_valid {p : QRPacket} (h : validPacket p = true) :
    decodePacket (encodePacket p) = some p := by
  obtain ⟨v, t, src, dst, pn, mt, key, name, payload, acks⟩ := p
  simp only [validPacket, Bool.and_eq_true, decide_eq_true_eq] at h
  obtain ⟨⟨hv, hsrc8⟩, hrest⟩ := h
  cases t with
  | B =>
    simp only [Bool.and_eq_true, decide_eq_true_eq] at hrest
    obtain ⟨⟨⟨⟨⟨⟨⟨hex, hdst⟩, hpn⟩, hmt⟩, hkey⟩, hname⟩, hpayload⟩, hacks⟩ := hrest
    subst hv hdst hpn hmt hkey hname hpayload hacks
    show decodePacket src = _
    have hb : isBeaconStr src = true := by
      unfold isBeaconStr
      rw [hsrc8, hex]
      simp
    rw [decodePacket, if_pos hb]
  | I =>
    simp only [Bool.and_eq_true, decide_eq_true_eq] at hrest
    obtain ⟨⟨⟨⟨⟨⟨hdst8, hpnv⟩, hmt⟩, hpayload⟩, hkey⟩, hname⟩, hacksv⟩ := hrest
    subst hv hmt hpayload
    obtain ⟨k, rfl, hk⟩ : ∃ k, pn = some k ∧ 0 ≤ k := by
      cases pn with
      | none => simp [validPn] at hpnv
      | some k => exact ⟨k, rfl, by simpa [validPn] using hpnv⟩
    obtain ⟨l, rfl, hl⟩ : ∃ l, acks = some l ∧ validAckList l = true := by
      cases acks with
      | none => simp [validAcksOpt] at hacksv
      | some l => exact ⟨l, rfl, by simpa [validAcksOpt] using hacksv⟩
    have henc : encodePacket ⟨PROTOCOL_VERSION, .I, src, dst, some k, none, key, name,
        none, some l⟩ =
        'I' :: (src ++ (dst ++ (showJsNum (some k) ++
          '|' :: (optStr key ++ '|' :: (optStr name ++ '|' :: encodeAcks l))))) := by
      simp [encodePacket]
    rw [henc]
    set pnS := showJsNum (some k) with hpnS
    set tail := optStr key ++ '|' :: (optStr name ++ '|' :: encodeAcks l) with htail
    have hpnD : pnS.all isDigitCh = true := by
      rw [hpnS, showJsNum_nonneg hk]; exact natToChars_all_digits _
    have hpnNe : pnS ≠ [] := by
      rw [hpnS, showJsNum_nonneg hk]; exact natToChars_ne_nil _
    have hpnNoPipe : '|' ∉ pnS := digits_no_pipe hpnD
    rw [decodePacket,
      if_neg (by rw [notBeacon_frame hsrc8 hdst8]; exact Bool.false_ne_true)]
    show some (decodeInitial _) = _
    simp only [decodeInitial]
    rw [slice_src hsrc8, slice_dst hsrc8 hdst8, slice_rest hsrc8 hdst8]
    rw [jsIndexOf_append_cons hpnNoPipe, jsSliceTo_append, jsSliceAfter_append]
    rw [hpnS, jsNumber_showJsNum hk, htail]
    rw [jsSplit_append_cons (validStrOpt_no_pipe hkey),
      jsSplit_append_cons (validStrOpt_no_pipe hname),
      jsSplit_of_not_mem (encodeAcks_no_pipe hl)]
    simp only [List.get?]
    rw [orUndef_optStr hkey, orUndef_optStr hname]
    simp only [decodeAcksOpt]
    rw [decodeAcksL_encodeAcks hl]
  | D =>
    simp only [Bool.and_eq_true, decide_eq_true_eq] at hrest
    obtain ⟨⟨⟨⟨⟨⟨hdst8, hpnv⟩, hmtv⟩, hkey⟩, hname⟩, hpayload⟩, hacksv⟩ := hrest
    subst hv hkey hname
    obtain ⟨k, rfl, hk⟩ : ∃ k, pn = some k ∧ 0 ≤ k := by
      cases pn with
      | none => simp [validPn] at hpnv
      | some k => exact ⟨k, rfl, by simpa [validPn] using hpnv⟩
    obtain ⟨l, rfl, hl⟩ : ∃ l, acks = some l ∧ validAckList l = true := by
      cases acks with
      | none => simp [validAcksOpt] at hacksv
      | some l => exact ⟨l, rfl, by simpa [validAcksOpt] using hacksv⟩
    have henc : encodePacket ⟨PROTOCOL_VERSION, .D, src, dst, some k, mt, none, none,
        payload, some l⟩ =
        'D' :: (src ++ (dst ++ ((showJsNum (some k) ++ optChar mt) ++
          '|' :: (optStr payload ++ '|' :: encodeAcks l)))) := by
      simp [encodePacket]
    rw [henc]
    set pnS := showJsNum (some k) with hpnS
    set tail := optStr payload ++ '|' :: encodeAcks l with htail
    have hpnD : pnS.all isDigitCh = true := by
      rw [hpnS, showJsNum_nonneg hk]; exact natToChars_all_digits _
    have hpnNe : pnS ≠ [] := by
      rw [hpnS, showJsNum_nonneg hk]; exact natToChars_ne_nil _
    have hpmNoPipe : '|' ∉ pnS ++ optChar mt := by
      intro hmem
      rcases List.mem_append.mp hmem with hmem | hmem
      · exact digits_no_pipe hpnD hmem
      · cases mt with
        | none => cases hmem
        | some c =>
          simp only [validMt, Bool.and_eq_true, decide_eq_true_eq] at hmtv
          rcases List.mem_cons.mp hmem with h | h
          · rw [← h] at hmtv
            exact absurd hmtv (by decide)
          · cases h
    rw [decodePacket,
      if_neg (by rw [notBeacon_frame hsrc8 hdst8]; exact Bool.false_ne_true)]
    show some (decodeData _) = _
    simp only [decodeData]
    rw [slice_src hsrc8, slice_dst hsrc8 hdst8, slice_rest hsrc8 hdst8]
    rw [jsIndexOf_append_cons hpmNoPipe, jsSliceTo_append, jsSliceAfter_append]
    have hmtEq : upperAtEnd (pnS ++ optChar mt) = mt := by
      cases mt with
      | none =>
        obtain ⟨d, hd, hdig⟩ := getLast?_digit hpnNe hpnD
        have h5 := toNat_of_isDigitCh hdig
        rw [show pnS ++ optChar none = pnS by simp [optChar], upperAtEnd_some hd,
          if_neg (by simp only [Bool.and_eq_true, decide_eq_true_eq, not_and]; omega)]
      | some c =>
        simp only [validMt, Bool.and_eq_true, decide_eq_true_eq] at hmtv
        rw [show pnS ++ optChar (some c) = pnS ++ [c] from rfl,
          upperAtEnd_some (List.getLast?_concat pnS),
          if_pos (by simp [hmtv.1, hmtv.2])]
    rw [hmtEq]
    have hdropMt : (if mt.isSome then (pnS ++ optChar mt).dropLast else pnS ++ optChar mt) =
        pnS := by
      cases mt with
      | none => simp [optChar]
      | some c =>
        simp only [Option.isSome_some, if_pos]
        rw [show pnS ++ optChar (some c) = pnS ++ [c] by rfl]
        exact List.dropLast_concat
    rw [hdropMt, hpnS, jsNumber_showJsNum hk, htail]
    rw [jsSplit_append_cons (validStrOpt_no_pipe hpayload),
      jsSplit_of_not_mem (encodeAcks_no_pipe hl)]
    simp only [List.get?]
    rw [orUndef_optStr hpayload]
    simp only [decodeAcksOpt]
    rw [decodeAcksL_encodeAcks hl]
  | A =>
    simp only [Bool.and_eq_true, decide_eq_true_eq] at hrest
    obtain ⟨⟨⟨⟨⟨⟨hdst8, hpnv⟩, hmt⟩, hkey⟩, hname⟩, hpayload⟩, hacksv⟩ := hrest
    subst hv hmt hkey hname hpayload
    obtain ⟨k, rfl, hk⟩ : ∃ k, pn = some k ∧ 0 ≤ k := by
      cases pn with
      | none => simp [validPn] at hpnv
      | some k => exact ⟨k, rfl, by simpa [validPn] using hpnv⟩
    obtain ⟨l, rfl, hl⟩ : ∃ l, acks = some l ∧ validAckList l = true := by
      cases acks with
      | none => simp [validAcksOpt] at hacksv
      | some l => exact ⟨l, rfl, by simpa [validAcksOpt] using hacksv⟩
    have henc : encodePacket ⟨PROTOCOL_VERSION, .A, src, dst, some k, none, none, none,
        none, some l⟩ =
        'A' :: (src ++ (dst ++ (showJsNum (some k) ++ '|' :: encodeAcks l))) := by
      simp [encodePacket]
    rw [henc]
    set pnS := showJsNum (some k) with hpnS
    have hpnD : pnS.all isDigitCh = true := by
      rw [hpnS, showJsNum_nonneg hk]; exact natToChars_all_digits _
    have hpnNoPipe : '|' ∉ pnS := digits_no_pipe hpnD
    rw [decodePacket,
      if_neg (by rw [notBeacon_frame hsrc8 hdst8]; exact Bool.false_ne_true)]
    show some (decodeAck _) = _
    simp only [decodeAck]
    rw [slice_src hsrc8, slice_dst hsrc8 hdst8, slice_rest hsrc8 hdst8]
    rw [jsIndexOf_append_cons hpnNoPipe, jsSliceTo_append, jsSliceAfter_append]
    rw [hpnS, jsNumber_showJsNum hk, decodeAcksL_encodeAcks hl]

theorem decodePacket_isSome_iff (s : List Char) :
    (decodePacket s).isSome =
      (isBeaconStr s || s.head? == some 'I' || s.head? == some 'D' || s.head? == some 'A') := by
  unfold decodePacket
  by_cases hb : isBeaconStr s
  · simp [hb]
  · have hb' : isBeaconStr s = false := by revert hb; cases isBeaconStr s <;> simp
    rw [if_neg hb, hb']
    split
    · rename_i heq; simp [heq]
    · rename_i heq; simp [heq]
    · rename_i heq; simp [heq]
    · rename_i hI hD hA
      have eI : (s.head? == some 'I') = false := beq_eq_false_iff_ne.mpr fun h => hI h
      have eD : (s.head? == some 'D') = false := beq_eq_false_iff_ne.mpr fun h => hD h
      have eA : (s.head? == some 'A') = false := beq_eq_false_iff_ne.mpr fun h => hA h
      simp [eI, eD, eA]

/-! ## Claim C1: the encode/decode round trip -/

/-- Claim C1 (amended): `decode(encode(p)) = p` holds for every
well-formed packet — protocol version 3, 8-character ids (the beacon's
source uppercase hex), a non-negative integer packet number, optional
string fields absent or non-empty and pipe-free, an uppercase `mt`, an
explicit list of non-negative ACK ranges on non-beacon packets, and
exactly the fields of the packet's type populated; in particular a beacon
must carry no name, because the beacon wire form is the bare device id
and the name would be lost (see the counterexample). -/
theorem C1_round_trip (p : QRPacket) (h : validPacket p = true) :
    decodePacket (encodePacket p) = some p :=
  decode_encode_valid h

/-- Claim C1 witness: the round trip at a concrete `Initial` packet with
every optional field populated. -/
theorem C1_round_trip_witness :
    validPacket
        { v := 3, t := PacketType.I, src := ['A', 'A', 'A', 'A', '1', '1', '1', '1'],
          dst := ['B', 'B', 'B', 'B', '2', '2', '2', '2'], pn := some 5,
          key := some ['K', 'E', 'Y'], name := some ['n', 'm'],
          acks := some [(some 1, some 3), (some 7, some 7)] } = true ∧
      decodePacket (encodePacket
        { v := 3, t := PacketType.I, src := ['A', 'A', 'A', 'A', '1', '1', '1', '1'],
          dst := ['B', 'B', 'B', 'B', '2', '2', '2', '2'], pn := some 5,
          key := some ['K', 'E', 'Y'], name := some ['n', 'm'],
          acks := some [(some 1, some 3), (some 7, some 7)] }) =
      some
        { v := 3, t := PacketType.I, src := ['A', 'A', 'A', 'A', '1', '1', '1', '1'],
          dst := ['B', 'B', 'B', 'B', '2', '2', '2', '2'], pn := some 5,
          key := some ['K', 'E', 'Y'], name := some ['n', 'm'],
          acks := some [(some 1, some 3), (some 7, some 7)] } :=
  ⟨by decide, C1_round_trip _ (by decide)⟩

/-- Claim C1 counterexample: the claim as stated fails.  A beacon packet
with a populated (well-formed) `name` field does not survive the round
trip: `encodePacket` emits only the bare device id, so the decoded packet
has `name = none` and differs from the original. -/
theorem C1_beacon_name_lost :
    decodePacket (encodePacket
        { v := 3, t := PacketType.B, src := ['A', 'A', 'A', 'A', '1', '1', '1', '1'],
          dst := ['*'], pn := some 0, name := some ['N'] }) ≠
      some
        { v := 3, t := PacketType.B, src := ['A', 'A', 'A', 'A', '1', '1', '1', '1'],
          dst := ['*'], pn := some 0, name := some ['N'] } := by
  decide

/-! ## Claim C3: decode is total but not fully defensive -/

/-- Claim C3 (amended): decoding never throws — `decodePacket` is a total
function into `Option` — and it returns `DecodeError` (`none`) exactly
for inputs that neither match the 8-character uppercase-hex beacon form
nor begin with one of the recognised type tags `'I'`, `'D'`, `'A'`.
Consequently garbage such as v2 JSON frames (which begin with `'{'`) is
rejected; but a truncated or malformed input that does begin with a
recognised tag is decoded into a packet with default/garbage fields
rather than rejected, and the v3 wire format carries no version field
that decoding could check (see the counterexample). -/
theorem C3_decode_total (s : List Char) :
    (decodePacket s).isSome =
      (isBeaconStr s || s.head? == some 'I' || s.head? == some 'D' || s.head? == some 'A') :=
  decodePacket_isSome_iff s

/-- Claim C3 counterexample: the truncated frame `"I"` is not rejected as
`DecodeError`; it decodes to a packet with empty ids and packet number 0
(`Number("")` is `0`). -/
theorem C3_truncated_accepted :
    decodePacket ['I'] =
      some { v := 3, t := PacketType.I, src := [], dst := [], pn := some 0,
             acks := some [] } := by
  rfl

/-! ## Claims C4/C5: the SACK range tracker

The two-pass `addToAckRanges` is characterised, on well-formed range
lists, by the one-pass specification recursion `specInsert` over plain
integer ranges; the claimed algebraic properties are proved of
`specInsert` and transported. -/

/-- Lift a plain integer range to an `AckRange`. -/
def lift1 (r : Int × Int) : AckRange := (some r.1, some r.2)

/-- Lift a list of integer ranges. -/
def lift (R : List (Int × Int)) : List AckRange := R.map lift1

/-- Two integer ranges in order with at least one number missing between
them. -/
def gapped (r s : Int × Int) : Prop := r.2 + 1 < s.1

/-- Well-formedness of an integer range list: each range is non-empty and
consecutive ranges are separated by a gap (this subsumes sortedness and
disjointness). -/
def WFI (R : List (Int × Int)) : Prop :=
  List.Chain' gapped R ∧ ∀ r ∈ R, r.1 ≤ r.2

/-- A single well-formed `AckRange`: integer bounds with `start ≤ end`. -/
def validRange : AckRange → Bool
  | (some a, some b) => decide (a ≤ b)
  | _ => false

/-- Integer bounds with a gap of at least one between two ranges. -/
def gapOkB (r s : AckRange) : Bool :=
  match r.2, s.1 with
  | some e, some s1 => decide (e + 1 < s1)
  | _, _ => false

/-- Executable well-formedness of an `AckRange` list: the invariant of
§3 of the specification (`start ≤ end`, sorted ascending, disjoint and
non-adjacent). -/
def wfRanges : List AckRange → Bool
  | [] => true
  | [r] => validRange r
  | r :: s :: rest => validRange r && gapOkB r s && wfRanges (s :: rest)

/-- Merge a freshly inserted or merged range with the head of the
remaining ranges if it now touches it (the only merge a single insertion
can cause on a well-formed list). -/
def bridgeMerge (r : Int × Int) (rest : List (Int × Int)) : List (Int × Int) :=
  match rest with
  | (s', e') :: rest' => if s' ≤ r.2 + 1 then (r.1, max r.2 e') :: rest' else r :: rest
  | [] => [r]

/-- One-pass specification of inserting `p` into a well-formed range
list. -/
def specInsert : List (Int × Int) → Int → List (Int × Int)
  | [], p => [(p, p)]
  | (s, e) :: rest, p =>
    if p < s - 1 then (p, p) :: (s, e) :: rest
    else if p ≤ e + 1 then bridgeMerge (min s p, max e p) rest
    else (s, e) :: specInsert rest p

theorem jsLt_some (a b : Int) : jsLt (some a) (some b) = decide (a < b) := rfl

theorem jsLe_some (a b : Int) : jsLe (some a) (some b) = decide (a ≤ b) := rfl

theorem jsAdd_some (a b : Int) : jsAdd (some a) (some b) = some (a + b) := rfl

theorem jsSub_some (a b : Int) : jsSub (some a) (some b) = some (a - b) := rfl

theorem jsMin_some (a b : Int) : jsMin (some a) (some b) = some (min a b) := rfl

theorem jsMax_some (a b : Int) : jsMax (some a) (some b) = some (max a b) := rfl

theorem lift_append (A B : List (Int × Int)) : lift (A ++ B) = lift A ++ lift B :=
  List.map_append lift1 A B

theorem insertScan_true (p : JsNum) (l : List AckRange) :
    ∀ acc, insertScan p acc true l = (l.foldl mergeStep acc, true) := by
  induction l with
  | nil => intro acc; rfl
  | cons x rest ih =>
    intro acc
    obtain ⟨xs, xe⟩ := x
    show insertScan p (mergeStep acc (xs, xe)) true rest = _
    rw [ih]
    rfl

theorem mergeStep_last {acc : List AckRange} {a : Int × Int}
    (h : acc.getLast? = some (lift1 a)) (r : Int × Int) :
    mergeStep acc (lift1 r) =
      if r.1 ≤ a.2 + 1 then acc.dropLast ++ [(some a.1, some (max a.2 r.2))]
      else acc ++ [lift1 r] := by
  unfold mergeStep
  rw [h]
  show (if (jsLe (some r.1) (jsAdd (some a.2) (some 1))) = true then _ else _) = _
  rw [jsAdd_some, jsLe_some]
  by_cases hle : r.1 ≤ a.2 + 1
  · rw [if_pos (by simpa using hle), if_pos hle]
    rfl
  · rw [if_neg (by simpa using hle), if_neg hle]


theorem foldl_mergeStep_gap {L : List (Int × Int)} :
    ∀ {acc : List AckRange} {a : Int × Int}, acc.getLast? = some (lift1 a) →
      List.Chain' gapped (a :: L) → (∀ r ∈ L, r.1 ≤ r.2) →
      (lift L).foldl mergeStep acc = acc ++ lift L := by
  induction L with
  | nil => intro acc a _ _ _; simp [lift]
  | cons x L ih =>
    intro acc a hlast hchain hvalid
    have hgap : gapped a x := (List.chain'_cons.mp hchain).1
    show (lift L).foldl mergeStep (mergeStep acc (lift1 x)) = _
    rw [mergeStep_last hlast, if_neg (by unfold gapped at hgap; omega)]
    rw [ih (a := x) (by simp [List.getLast?_concat]) (List.chain'_cons.mp hchain).2
      (fun r hr => hvalid r (List.mem_cons_of_mem _ hr))]
    simp [lift]

theorem foldl_mergeStep_id {L : List (Int × Int)} (hchain : List.Chain' gapped L)
    (hvalid : ∀ r ∈ L, r.1 ≤ r.2) : (lift L).foldl mergeStep [] = lift L := by
  cases L with
  | nil => rfl
  | cons x L =>
    show (lift L).foldl mergeStep (mergeStep [] (lift1 x)) = _
    have h1 : mergeStep [] (lift1 x) = [lift1 x] := rfl
    rw [h1, foldl_mergeStep_gap (a := x) (by simp) hchain
      (fun r hr => hvalid r (List.mem_cons_of_mem _ hr))]
    simp [lift]


theorem WFI_tail {x : Int × Int} {R : List (Int × Int)} (h : WFI (x :: R)) : WFI R :=
  ⟨h.1.tail, fun r hr => h.2 r (List.mem_cons_of_mem _ hr)⟩

theorem chain'_congr_head {x y : Int × Int} (hxy : x.2 = y.2) {L : List (Int × Int)}
    (h : List.Chain' gapped (x :: L)) : List.Chain' gapped (y :: L) := by
  cases L with
  | nil => simp
  | cons z L =>
    rw [List.chain'_cons] at h ⊢
    exact ⟨by unfold gapped at h ⊢; omega, h.2⟩

theorem insertScan_false (p : Int) :
    ∀ (R : List (Int × Int)), WFI R → ∀ (A : List AckRange),
      insertScan (some p) A false (lift R) =
        if R.all (fun r => decide (r.2 + 1 < p)) then (A ++ lift R, false)
        else (A ++ lift (specInsert R p), true) := by
  intro R
  induction R with
  | nil => intro _ A; simp [insertScan, lift]
  | cons x rest ih =>
    intro hWF A
    obtain ⟨s, e⟩ := x
    have hchain := hWF.1
    have hse : s ≤ e := hWF.2 (s, e) (List.mem_cons_self _ _)
    have hvrest : ∀ r ∈ rest, r.1 ≤ r.2 := fun r hr => hWF.2 r (List.mem_cons_of_mem _ hr)
    show insertScan (some p) A false ((some s, some e) :: lift rest) = _
    by_cases h1 : p < s - 1
    · have hstep : insertScan (some p) A false ((some s, some e) :: lift rest) =
          insertScan (some p) (A ++ [(some p, some p), (some s, some e)]) true (lift rest) := by
        simp [insertScan, jsLt_some, jsSub_some, h1]
      rw [hstep, insertScan_true,
        foldl_mergeStep_gap (a := (s, e)) (by simp [lift1]) hchain hvrest]
      have hnotall : ((s, e) :: rest).all (fun r => decide (r.2 + 1 < p)) = false := by
        simp only [List.all_cons, Bool.and_eq_false_iff]
        left
        simp only [decide_eq_false_iff_not]
        omega
      rw [hnotall]
      have hspec : specInsert ((s, e) :: rest) p = (p, p) :: (s, e) :: rest := by
        simp [specInsert, h1]
      rw [if_neg (by simp), hspec]
      simp [lift, lift1]
    · by_cases h2 : p ≤ e + 1
      · have hstep : insertScan (some p) A false ((some s, some e) :: lift rest) =
            insertScan (some p) (A ++ [(some (min s p), some (max e p))]) true (lift rest) := by
          simp [insertScan, jsLt_some, jsSub_some, jsLe_some, jsAdd_some, jsMin_some,
            jsMax_some, h1, h2]
        have hnotall : ((s, e) :: rest).all (fun r => decide (r.2 + 1 < p)) = false := by
          simp only [List.all_cons, Bool.and_eq_false_iff]
          left
          simp only [decide_eq_false_iff_not]
          omega
        have hspec : specInsert ((s, e) :: rest) p = bridgeMerge (min s p, max e p) rest := by
          simp [specInsert, h1, h2]
        rw [hstep, insertScan_true, hnotall, if_neg (by simp), hspec]
        cases rest with
        | nil => simp [lift, lift1, bridgeMerge]
        | cons y rest' =>
          obtain ⟨s', e'⟩ := y
          have hgap : gapped (s, e) (s', e') := (List.chain'_cons.mp hchain).1
          have hs'e' : s' ≤ e' := hvrest (s', e') (List.mem_cons_self _ _)
          have hl : lift ((s', e') :: rest') = lift1 (s', e') :: lift rest' := rfl
          rw [hl, List.foldl_cons,
            mergeStep_last (a := (min s p, max e p)) (by simp [lift1]) (s', e')]
          have hme : max (max e p) e' = e' := by
            have h5 : max e p ≤ e' := by
              unfold gapped at hgap
              rcases le_total e p with h6 | h6
              · rw [max_eq_right h6]; omega
              · rw [max_eq_left h6]; omega
            exact max_eq_right h5
          by_cases h3 : s' ≤ max e p + 1
          · rw [if_pos (by simpa using h3)]
            simp only [List.dropLast_concat]
            rw [foldl_mergeStep_gap (a := ((min s p), max (max e p) e'))
              (by simp [lift1])
              (chain'_congr_head (x := (s', e')) (by simp [hme]) (hchain.tail))
              (fun r hr => hvrest r (List.mem_cons_of_mem _ hr))]
            have hbm : bridgeMerge (min s p, max e p) ((s', e') :: rest') =
                (min s p, max (max e p) e') :: rest' := by
              simp [bridgeMerge, h3]
            rw [hbm]
            simp [lift, lift1]
          · rw [if_neg (by simpa using h3)]
            rw [foldl_mergeStep_gap (a := (s', e')) (by simp [lift1]) hchain.tail
              (fun r hr => hvrest r (List.mem_cons_of_mem _ hr))]
            have hbm : bridgeMerge (min s p, max e p) ((s', e') :: rest') =
                (min s p, max e p) :: (s', e') :: rest' := by
              simp [bridgeMerge, h3]
            rw [hbm]
            simp [lift, lift1]
      · have h4 : e + 1 < p := by omega
        have hstep : insertScan (some p) A false ((some s, some e) :: lift rest) =
            insertScan (some p) (A ++ [(some s, some e)]) false (lift rest) := by
          simp [insertScan, jsLt_some, jsSub_some, jsLe_some, jsAdd_some, h1, h2]
        rw [hstep, ih (WFI_tail hWF)]
        have hspec : specInsert ((s, e) :: rest) p = (s, e) :: specInsert rest p := by
          simp [specInsert, h1, h2]
        by_cases hall : rest.all (fun r => decide (r.2 + 1 < p)) = true
        · have hallc : ((s, e) :: rest).all (fun r => decide (r.2 + 1 < p)) = true := by
            simp only [List.all_cons, hall, Bool.and_true]
            exact decide_eq_true h4
          rw [if_pos hall, if_pos hallc]
          simp [lift, lift1]
        · have hallc : ¬((s, e) :: rest).all (fun r => decide (r.2 + 1 < p)) = true := by
            simp only [List.all_cons, Bool.and_eq_true]
            exact fun hc => hall hc.2
          rw [if_neg hall, if_neg hallc, hspec]
          simp [lift, lift1]

theorem bridgeMerge_head (r : Int × Int) (rest : List (Int × Int)) :
    ∃ z, (bridgeMerge r rest).head? = some (r.1, z) ∧ r.2 ≤ z := by
  cases rest with
  | nil => exact ⟨r.2, rfl, le_refl _⟩
  | cons y rest' =>
    obtain ⟨s', e'⟩ := y
    by_cases h : s' ≤ r.2 + 1
    · exact ⟨max r.2 e', by simp [bridgeMerge, h], le_max_left _ _⟩
    · exact ⟨r.2, by simp [bridgeMerge, h], le_refl _⟩

theorem WFI_all_gt : ∀ {rest : List (Int × Int)} {s e : Int},
    WFI ((s, e) :: rest) → ∀ r ∈ rest, e + 1 < r.1 := by
  intro rest
  induction rest with
  | nil => intro s e _ r hr; cases hr
  | cons y rest2 ih =>
    intro s e h r hr
    obtain ⟨s2, e2⟩ := y
    have hgap : gapped (s, e) (s2, e2) := (List.chain'_cons.mp h.1).1
    have hWF2 : WFI ((s2, e2) :: rest2) := WFI_tail h
    rcases List.mem_cons.mp hr with rfl | hr2
    · simpa [gapped] using hgap
    · have h1 := ih hWF2 r hr2
      have h2 : s2 ≤ e2 := hWF2.2 _ (List.mem_cons_self _ _)
      unfold gapped at hgap
      omega

theorem specInsert_head_gt {R : List (Int × Int)} {p e : Int} (hp : e + 1 < p)
    (hR : ∀ r ∈ R, e + 1 < r.1) :
    ∀ q, (specInsert R p).head? = some q → e + 1 < q.1 := by
  cases R with
  | nil =>
    intro q hq
    simp only [specInsert, List.head?_cons, Option.some_inj] at hq
    rw [← hq]
    exact hp
  | cons x rest =>
    obtain ⟨s2, e2⟩ := x
    intro q hq
    have hs2 : e + 1 < s2 := hR (s2, e2) (List.mem_cons_self _ _)
    unfold specInsert at hq
    split_ifs at hq with h1 h2
    · simp only [List.head?_cons, Option.some_inj] at hq
      rw [← hq]; exact hp
    · obtain ⟨z, hz, _⟩ := bridgeMerge_head (min s2 p, max e2 p) rest
      rw [hz] at hq
      injection hq with hq
      rw [← hq]
      simp only []
      exact lt_min hs2 hp
    · simp only [List.head?_cons, Option.some_inj] at hq
      rw [← hq]; exact hs2

theorem specInsert_WFI {R : List (Int × Int)} (hWF : WFI R) (p : Int) :
    WFI (specInsert R p) := by
  induction R with
  | nil =>
    refine ⟨List.chain'_singleton _, ?_⟩
    intro r hr
    simp only [specInsert, List.mem_singleton] at hr
    simp [hr]
  | cons x rest ih =>
    obtain ⟨s, e⟩ := x
    have hse : s ≤ e := hWF.2 (s, e) (List.mem_cons_self _ _)
    have hvrest : ∀ r ∈ rest, r.1 ≤ r.2 := fun r hr => hWF.2 r (List.mem_cons_of_mem _ hr)
    unfold specInsert
    split_ifs with h1 h2
    · refine ⟨List.chain'_cons.mpr ⟨by unfold gapped; omega, hWF.1⟩, ?_⟩
      intro r hr
      rcases List.mem_cons.mp hr with rfl | hr
      · simp
      · exact hWF.2 r hr
    · cases rest with
      | nil =>
        refine ⟨List.chain'_singleton _, ?_⟩
        intro r hr
        simp only [bridgeMerge, List.mem_singleton] at hr
        subst hr
        simp only []
        omega
      | cons y rest' =>
        obtain ⟨s', e'⟩ := y
        have hgap : gapped (s, e) (s', e') := (List.chain'_cons.mp hWF.1).1
        have hs'e' : s' ≤ e' := hvrest (s', e') (List.mem_cons_self _ _)
        unfold gapped at hgap
        simp only [bridgeMerge]
        by_cases h3 : s' ≤ max e p + 1
        · rw [if_pos (by simpa using h3)]
          have hme : max (max e p) e' = e' := by omega
          refine ⟨?_, ?_⟩
          · exact chain'_congr_head (x := (s', e')) (by simp [hme]) (hWF.1.tail)
          · intro r hr
            rcases List.mem_cons.mp hr with rfl | hr
            · simp only []
              omega
            · exact hvrest r (List.mem_cons_of_mem _ hr)
        · rw [if_neg (by simpa using h3)]
          refine ⟨?_, ?_⟩
          · refine List.chain'_cons.mpr ⟨?_, hWF.1.tail⟩
            unfold gapped
            simp only []
            omega
          · intro r hr
            rcases List.mem_cons.mp hr with rfl | hr
            · simp only []
              omega
            · exact hvrest r hr
    · have hIH := ih (WFI_tail hWF)
      have h4 : e + 1 < p := by omega
      refine ⟨?_, ?_⟩
      · refine List.chain'_cons'.mpr ⟨?_, hIH.1⟩
        intro q hq
        exact specInsert_head_gt h4 (WFI_all_gt hWF) q hq
      · intro r hr
        rcases List.mem_cons.mp hr with rfl | hr
        · exact hse
        · exact hIH.2 r hr

theorem specInsert_beyond : ∀ {R : List (Int × Int)}, WFI R →
    ∀ {p : Int}, (∀ r ∈ R, r.2 + 1 < p) → specInsert R p = R ++ [(p, p)] := by
  intro R
  induction R with
  | nil => intro _ p _; rfl
  | cons x rest ih =>
    intro hWF p hall
    obtain ⟨s, e⟩ := x
    have hse : s ≤ e := hWF.2 (s, e) (List.mem_cons_self _ _)
    have he : e + 1 < p := hall (s, e) (List.mem_cons_self _ _)
    unfold specInsert
    rw [if_neg (by omega), if_neg (by omega),
      ih (WFI_tail hWF) (fun r hr => hall r (List.mem_cons_of_mem _ hr))]
    rfl

theorem addToAckRanges_lift {R : List (Int × Int)} (hWF : WFI R) (p : Int) :
    addToAckRanges (lift R) (some p) = lift (specInsert R p) := by
  cases R with
  | nil => rfl
  | cons x rest =>
    unfold addToAckRanges
    rw [if_neg (by simp [lift]), insertScan_false p (x :: rest) hWF []]
    by_cases hall : (x :: rest).all (fun r => decide (r.2 + 1 < p)) = true
    · rw [if_pos hall]
      have hallP : ∀ r ∈ x :: rest, r.2 + 1 < p := by
        intro r hr
        simpa using List.all_eq_true.mp hall r hr
      show (([] ++ lift (x :: rest)) ++ [(some p, some p)]).foldl mergeStep [] = _
      have hsh : ([] ++ lift (x :: rest)) ++ [(some p, some p)] =
          lift ((x :: rest) ++ [(p, p)]) := by
        simp [lift, lift1]
      rw [hsh, foldl_mergeStep_id, specInsert_beyond hWF hallP]
      · rw [List.chain'_append]
        refine ⟨hWF.1, List.chain'_singleton _, ?_⟩
        intro y hy z hz
        rw [List.head?_cons, Option.mem_def, Option.some_inj] at hz
        subst hz
        have hymem : y ∈ x :: rest := List.mem_of_mem_getLast? hy
        have := hallP y hymem
        unfold gapped
        omega
      · intro r hr
        rcases List.mem_append.mp hr with hr | hr
        · exact hWF.2 r hr
        · simp only [List.mem_singleton] at hr
          subst hr
          simp
    · rw [if_neg hall]
      show (([] ++ lift (specInsert (x :: rest) p)).foldl mergeStep []) = _
      rw [List.nil_append]
      have hWF' := specInsert_WFI hWF p
      exact foldl_mergeStep_id hWF'.1 hWF'.2

theorem specInsert_covered (R : List (Int × Int)) (p : Int) :
    ∃ q ∈ specInsert R p, q.1 ≤ p ∧ p ≤ q.2 := by
  induction R with
  | nil => exact ⟨(p, p), List.mem_singleton_self _, le_refl _, le_refl _⟩
  | cons x rest ih =>
    obtain ⟨s, e⟩ := x
    unfold specInsert
    split_ifs with h1 h2
    · exact ⟨(p, p), List.mem_cons_self _ _, le_refl _, le_refl _⟩
    · obtain ⟨z, hz, hz2⟩ := bridgeMerge_head (min s p, max e p) rest
      refine ⟨(min s p, z), List.mem_of_mem_head? hz, by simp, ?_⟩
      simp only []
      omega
    · obtain ⟨q, hq, hq2⟩ := ih
      exact ⟨q, List.mem_cons_of_mem _ hq, hq2⟩

theorem specInsert_noop : ∀ {R : List (Int × Int)}, WFI R → ∀ {p : Int},
    (∃ q ∈ R, q.1 ≤ p ∧ p ≤ q.2) → specInsert R p = R := by
  intro R
  induction R with
  | nil => intro _ p h; obtain ⟨q, hq, _⟩ := h; cases hq
  | cons x rest ih =>
    intro hWF p hcov
    obtain ⟨s, e⟩ := x
    have hse : s ≤ e := hWF.2 (s, e) (List.mem_cons_self _ _)
    obtain ⟨q, hq, hq1, hq2⟩ := hcov
    rcases List.mem_cons.mp hq with rfl | hqrest
    · have hq1' : s ≤ p := by simpa using hq1
      have hq2' : p ≤ e := by simpa using hq2
      unfold specInsert
      rw [if_neg (by omega), if_pos (by omega)]
      rw [min_eq_left hq1', max_eq_left hq2']
      cases rest with
      | nil => rfl
      | cons y rest' =>
        obtain ⟨s', e'⟩ := y
        have hgap' : e + 1 < s' := by
          simpa [gapped] using (List.chain'_cons.mp hWF.1).1
        have hno : ¬s' ≤ e + 1 := by omega
        simp [bridgeMerge, hno]
    · have hgt : e + 1 < q.1 := WFI_all_gt hWF q hqrest
      unfold specInsert
      rw [if_neg (by omega), if_neg (by omega),
        ih (WFI_tail hWF) ⟨q, hqrest, hq1, hq2⟩]

theorem specInsert_adjacent : ∀ {R : List (Int × Int)}, WFI R → ∀ {p a b : Int},
    (a, b) ∈ R → a - 1 ≤ p → p ≤ b + 1 →
    ∃ a' b' : Int, (a', b') ∈ specInsert R p ∧ a' ≤ min a p ∧ max b p ≤ b' := by
  intro R
  induction R with
  | nil => intro _ p a b h; cases h
  | cons x rest ih =>
    intro hWF p a b hab h1 h2
    obtain ⟨s, e⟩ := x
    have hse : s ≤ e := hWF.2 (s, e) (List.mem_cons_self _ _)
    have hab' : a ≤ b := hWF.2 (a, b) hab
    rcases List.mem_cons.mp hab with heq | habrest
    · have hs : a = s := congrArg Prod.fst heq
      have he : b = e := congrArg Prod.snd heq
      subst hs
      subst he
      unfold specInsert
      rw [if_neg (by omega), if_pos (by omega)]
      obtain ⟨z, hz, hz2⟩ := bridgeMerge_head (min a p, max b p) rest
      exact ⟨min a p, z, List.mem_of_mem_head? hz, le_refl _, hz2⟩
    · have hgt : e + 1 < a := WFI_all_gt hWF (a, b) habrest
      unfold specInsert
      by_cases hc1 : p < s - 1
      · omega
      · rw [if_neg hc1]
        by_cases hc2 : p ≤ e + 1
        · -- bridge: p = e + 1 and (a, b) is the head of rest
          rw [if_pos hc2]
          have hpe : p = e + 1 := by omega
          have hae : a = e + 2 := by omega
          cases rest with
          | nil => cases habrest
          | cons y rest' =>
            obtain ⟨s', e'⟩ := y
            have hgap : gapped (s, e) (s', e') := (List.chain'_cons.mp hWF.1).1
            have hs'e' : s' ≤ e' := hWF.2 (s', e') (List.mem_cons_of_mem _ (List.mem_cons_self _ _))
            unfold gapped at hgap
            have habhead : (a, b) = (s', e') := by
              rcases List.mem_cons.mp habrest with h | h
              · exact h
              · exfalso
                have := WFI_all_gt (WFI_tail hWF) (a, b) h
                omega
            have hs : a = s' := congrArg Prod.fst habhead
            have he : b = e' := congrArg Prod.snd habhead
            subst hs
            subst he
            have hbm : bridgeMerge (min s p, max e p) ((a, b) :: rest') =
                (min s p, max (max e p) b) :: rest' := by
              simp only [bridgeMerge]
              rw [if_pos (by show a ≤ e ⊔ p + 1; omega)]
            rw [hbm]
            exact ⟨min s p, max (max e p) b, List.mem_cons_self _ _, by omega, by omega⟩
        · rw [if_neg hc2]
          obtain ⟨a', b', hmem, hle1, hle2⟩ := ih (WFI_tail hWF) habrest h1 h2
          exact ⟨a', b', List.mem_cons_of_mem _ hmem, hle1, hle2⟩

theorem wfRanges_lift : ∀ {R : List (Int × Int)}, WFI R → wfRanges (lift R) = true := by
  intro R
  induction R with
  | nil => intro _; rfl
  | cons x rest ih =>
    intro hWF
    obtain ⟨s, e⟩ := x
    have hse : s ≤ e := hWF.2 (s, e) (List.mem_cons_self _ _)
    cases rest with
    | nil =>
      show validRange (lift1 (s, e)) = true
      simp [validRange, lift1, hse]
    | cons y rest' =>
      obtain ⟨s', e'⟩ := y
      have hgap : e + 1 < s' := by
        simpa [gapped] using (List.chain'_cons.mp hWF.1).1
      show (validRange (lift1 (s, e)) && gapOkB (lift1 (s, e)) (lift1 (s', e')) &&
        wfRanges (lift1 (s', e') :: lift rest')) = true
      rw [show lift1 (s', e') :: lift rest' = lift ((s', e') :: rest') from rfl,
        ih (WFI_tail hWF)]
      simp [validRange, gapOkB, lift1, hse, hgap]

theorem wfRanges_extract : ∀ {L : List AckRange}, wfRanges L = true →
    ∃ R, L = lift R ∧ WFI R := by
  intro L
  induction L with
  | nil => intro _; exact ⟨[], rfl, List.chain'_nil, fun r hr => absurd hr (List.not_mem_nil r)⟩
  | cons r L ih =>
    intro h
    cases L with
    | nil =>
      have hv : validRange r = true := h
      obtain ⟨x, y⟩ := r
      match x, y, hv with
      | some a, some b, hv =>
        have hab : a ≤ b := by simpa [validRange] using hv
        exact ⟨[(a, b)], rfl, List.chain'_singleton _, by
          intro q hq
          rw [List.mem_singleton] at hq
          subst hq
          exact hab⟩
    | cons s L' =>
      have h3 : validRange r = true ∧ gapOkB r s = true ∧ wfRanges (s :: L') = true := by
        have h' : (validRange r && gapOkB r s && wfRanges (s :: L')) = true := h
        simp only [Bool.and_eq_true] at h'
        exact ⟨h'.1.1, h'.1.2, h'.2⟩
      obtain ⟨R', heq, hWF'⟩ := ih h3.2.2
      cases R' with
      | nil => cases heq
      | cons y R'' =>
        have hs : s = lift1 y := by
          have := congrArg List.head? heq
          simpa [lift] using this
        have hL' : L' = lift R'' := by
          have := congrArg List.tail heq
          simpa [lift] using this
        obtain ⟨x1, x2⟩ := r
        match x1, x2, h3.1 with
        | some a, some b, hv1 =>
          have hab : a ≤ b := by simpa [validRange] using hv1
          have hgap : b + 1 < y.1 := by
            have := h3.2.1
            rw [hs] at this
            simpa [gapOkB, lift1] using this
          refine ⟨(a, b) :: y :: R'', ?_, ?_, ?_⟩
          · rw [heq]
            rfl
          · exact List.chain'_cons.mpr ⟨hgap, hWF'.1⟩
          · intro q hq
            rcases List.mem_cons.mp hq with rfl | hq
            · exact hab
            · exact hWF'.2 q hq

theorem mem_lift {R : List (Int × Int)} {a b : Int} :
    (some a, some b) ∈ lift R ↔ (a, b) ∈ R := by
  constructor
  · intro h
    obtain ⟨r, hr, hreq⟩ := List.mem_map.mp h
    obtain ⟨r1, r2⟩ := r
    have h1 : some r1 = some a := congrArg Prod.fst hreq
    have h2 : some r2 = some b := congrArg Prod.snd hreq
    rw [Option.some_inj] at h1 h2
    subst h1
    subst h2
    exact hr
  · intro h
    exact List.mem_map.mpr ⟨(a, b), h, rfl⟩

/-! ## Claims C4 and C5 -/

/-- Claim C4: SACK insertion is idempotent and merging on well-formed
range sets (the data-model invariant of §3): inserting the same packet
number twice gives the same result as inserting it once, and inserting a
number adjacent to an existing range yields a range covering both the old
range and the new number (which, with Claim C5's invariant, is a single
merged range with no gap). -/
theorem C4_sack_idempotent_merge (R : List AckRange) (p : Int)
    (h : wfRanges R = true) :
    addToAckRanges (addToAckRanges R (some p)) (some p) = addToAckRanges R (some p) ∧
    ∀ a b : Int, (some a, some b) ∈ R → (p = b + 1 ∨ p = a - 1) →
      ∃ a' b' : Int, (some a', some b') ∈ addToAckRanges R (some p) ∧
        a' ≤ min a p ∧ max b p ≤ b' := by
  obtain ⟨R₀, rfl, hWF⟩ := wfRanges_extract h
  constructor
  · rw [addToAckRanges_lift hWF, addToAckRanges_lift (specInsert_WFI hWF p)]
    congr 1
    exact specInsert_noop (specInsert_WFI hWF p) (specInsert_covered R₀ p)
  · intro a b hab hadj
    have hmem : (a, b) ∈ R₀ := mem_lift.mp hab
    have hvab : a ≤ b := hWF.2 (a, b) hmem
    rw [addToAckRanges_lift hWF]
    obtain ⟨a', b', hmem', h1, h2⟩ :=
      specInsert_adjacent hWF (p := p) hmem (by rcases hadj with h | h <;> omega)
        (by rcases hadj with h | h <;> omega)
    exact ⟨a', b', mem_lift.mpr hmem', h1, h2⟩

/-- Claim C4 witness: idempotence and adjacent-merge at the concrete
range set `[[1,3]]` with `pn = 4`. -/
theorem C4_sack_witness :
    wfRanges [((some 1 : JsNum), (some 3 : JsNum))] = true ∧
    addToAckRanges (addToAckRanges [((some 1 : JsNum), (some 3 : JsNum))] (some 4)) (some 4) =
      addToAckRanges [((some 1 : JsNum), (some 3 : JsNum))] (some 4) ∧
    ∃ a' b' : Int,
      (some a', some b') ∈ addToAckRanges [((some 1 : JsNum), (some 3 : JsNum))] (some 4) ∧
        a' ≤ min 1 4 ∧ max 3 4 ≤ b' :=
  ⟨by decide,
    (C4_sack_idempotent_merge [(some 1, some 3)] 4 (by decide)).1,
    (C4_sack_idempotent_merge [(some 1, some 3)] 4 (by decide)).2 1 3 (by decide)
      (Or.inl (by decide))⟩

/-- Claim C5: after any sequence of insertions starting from the empty
range list, the resulting SACK range list satisfies the §3 invariant:
every range has `start ≤ end`, and the ranges are sorted ascending,
disjoint and non-adjacent (consecutive ranges separated by at least one
missing number). -/
theorem C5_sack_invariant (pns : List Int) :
    wfRanges (pns.foldl (fun R q => addToAckRanges R (some q)) []) = true := by
  suffices h : ∀ R : List (Int × Int), WFI R →
      ∃ R', pns.foldl (fun R q => addToAckRanges R (some q)) (lift R) = lift R' ∧ WFI R' by
    obtain ⟨R', hR', hWF'⟩ :=
      h [] ⟨List.chain'_nil, fun r hr => absurd hr (List.not_mem_nil r)⟩
    rw [show ([] : List AckRange) = lift [] from rfl, hR']
    exact wfRanges_lift hWF'
  induction pns with
  | nil => exact fun R hR => ⟨R, rfl, hR⟩
  | cons q pns ih =>
    intro R hR
    rw [List.foldl_cons, addToAckRanges_lift hR]
    exact ih _ (specInsert_WFI hR q)

/-! ## Mesh-state toolkit -/

/-- Look up the sent-packet record a peer holds for a packet number. -/
def lookupSent (st : MeshState) (peerId : List Char) (pn : JsNum) : Option SentPacket :=
  (assocGet st.peers peerId).bind fun p => assocGet p.sentPackets pn

theorem assocGet_assocSet_self {κ α : Type} [DecidableEq κ] (l : List (κ × α)) (k : κ)
    (v : α) : assocGet (assocSet l k v) k = some v := by
  induction l with
  | nil => simp [assocSet, assocGet]
  | cons x rest ih =>
    obtain ⟨k', v'⟩ := x
    by_cases h : k' = k
    · simp [assocSet, assocGet, h]
    · simp [assocSet, assocGet, h, ih]

theorem assocGet_assocSet_ne {κ α : Type} [DecidableEq κ] (l : List (κ × α)) {k k' : κ}
    (v : α) (h : k' ≠ k) : assocGet (assocSet l k v) k' = assocGet l k' := by
  have h2 : k ≠ k' := fun he => h he.symm
  induction l with
  | nil => simp [assocSet, assocGet, h2]
  | cons x rest ih =>
    obtain ⟨k1, v1⟩ := x
    by_cases h1 : k1 = k
    · subst h1
      simp [assocSet, assocGet, h2]
    · by_cases h3 : k1 = k'
      · simp [assocSet, assocGet, h1, h3, h]
      · simp [assocSet, assocGet, h1, h3, ih]

theorem assocGet_assocUpdate_self {κ α : Type} [DecidableEq κ] (l : List (κ × α)) (k : κ)
    (f : α → α) : assocGet (assocUpdate l k f) k = (assocGet l k).map f := by
  induction l with
  | nil => simp [assocUpdate, assocGet]
  | cons x rest ih =>
    obtain ⟨k', v'⟩ := x
    by_cases h : k' = k
    · simp [assocUpdate, assocGet, h]
    · simp [assocUpdate, assocGet, h, ih]

theorem assocGet_assocUpdate_ne {κ α : Type} [DecidableEq κ] (l : List (κ × α)) {k k' : κ}
    (f : α → α) (h : k' ≠ k) : assocGet (assocUpdate l k f) k' = assocGet l k' := by
  have h2 : k ≠ k' := fun he => h he.symm
  induction l with
  | nil => simp [assocUpdate, assocGet]
  | cons x rest ih =>
    obtain ⟨k1, v1⟩ := x
    by_cases h1 : k1 = k
    · subst h1
      simp [assocUpdate, assocGet, h2]
    · by_cases h3 : k1 = k'
      · simp [assocUpdate, assocGet, h1, h3, h]
      · simp [assocUpdate, assocGet, h1, h3, ih]

theorem lookupSent_eq_some {st : MeshState} {pid : List Char} {pn : JsNum}
    {rec : SentPacket} (h : lookupSent st pid pn = some rec) :
    ∃ peer, assocGet st.peers pid = some peer ∧ assocGet peer.sentPackets pn = some rec := by
  unfold lookupSent at h
  cases hp : assocGet st.peers pid with
  | none => rw [hp] at h; cases h
  | some peer =>
    rw [hp] at h
    exact ⟨peer, rfl, h⟩

/-! ## Claim C10: markPacketDisplayed counts every display -/

theorem markDisplayed_get {st : MeshState} (now : Int) {pkt : QRPacket} {rec : SentPacket}
    (hrec : lookupSent st pkt.dst pkt.pn = some rec) (hpend : rec.status = .pending) :
    lookupSent (markPacketDisplayed st now pkt) pkt.dst pkt.pn =
      some { rec with timestamp := now, retries := rec.retries + 1 } := by
  obtain ⟨peer, hpeer, hsp⟩ := lookupSent_eq_some hrec
  unfold markPacketDisplayed
  split
  · rename_i hnone
    rw [hnone] at hpeer
    cases hpeer
  · rename_i peer1 hpeer1
    rw [hpeer1] at hpeer
    rw [Option.some_inj] at hpeer
    subst hpeer
    split
    · rename_i sent hsp1
      rw [hsp1] at hsp
      rw [Option.some_inj] at hsp
      subst hsp
      rw [if_pos hpend]
      unfold lookupSent
      simp only [assocGet_assocUpdate_self, hpeer1, Option.map_some', Option.bind_some]
      exact assocGet_assocSet_self _ _ _
    · rename_i hnone
      rw [hnone] at hsp
      cases hsp

/-- Claim C10: `markPacketDisplayed` increments the retry counter of a
`pending` sent packet by one on every call — including the very first
display — and refreshes its display timestamp; after `n ≥ 1` displays a
packet that started with `retries = r` has `retries = r + n`, so a fresh
packet (`r = 0`) displayed `n` times has retry count `n`, and the first
display already counts against the `maxRetries` budget of
`checkRetries`. -/
theorem C10_mark_displayed_counts (st : MeshState) (now : Int) (pkt : QRPacket)
    (rec : SentPacket) (hrec : lookupSent st pkt.dst pkt.pn = some rec)
    (hpend : rec.status = .pending) :
    lookupSent (markPacketDisplayed st now pkt) pkt.dst pkt.pn =
      some { rec with timestamp := now, retries := rec.retries + 1 } ∧
    ∀ n, 1 ≤ n →
      lookupSent ((fun s => markPacketDisplayed s now pkt)^[n] st) pkt.dst pkt.pn =
        some { rec with timestamp := now, retries := rec.retries + n } := by
  refine ⟨markDisplayed_get now hrec hpend, ?_⟩
  intro n hn
  induction n with
  | zero => omega
  | succ m ih =>
    by_cases hm : 1 ≤ m
    · have hprev := ih hm
      rw [Function.iterate_succ_apply']
      have hstep := markDisplayed_get now hprev hpend
      rw [hstep]
      rfl
    · have hm0 : m = 0 := by omega
      subst hm0
      rw [Function.iterate_one]
      exact markDisplayed_get now hrec hpend

/-- The packet displayed in the C10 witness. -/
def c10Pkt : QRPacket :=
  { v := 3, t := PacketType.D, src := ['A'], dst := ['B'], pn := some 7 }

/-- The tracked record of the C10 witness. -/
def c10Rec : SentPacket :=
  { packet := c10Pkt, timestamp := 0, retries := 0, status := SentStatus.pending }

/-- The peer of the C10 witness. -/
def c10Peer : Peer := { id := ['B'], lastSeen := 0, sentPackets := [(some 7, c10Rec)] }

/-- The concrete state of the C10 witness: one peer holding one fresh
pending sent packet. -/
def c10State : MeshState := { deviceId := ['A'], peers := [(['B'], c10Peer)] }

/-- Claim C10 witness: one concrete display of a fresh pending packet
takes its retry count from 0 to 1. -/
theorem C10_mark_displayed_witness :
    lookupSent (markPacketDisplayed c10State 50 c10Pkt) c10Pkt.dst c10Pkt.pn =
      some { packet := c10Pkt, timestamp := 50, retries := 1,
             status := SentStatus.pending } :=
  (C10_mark_displayed_counts c10State 50 c10Pkt c10Rec (by decide) (by decide)).1

/-! ## Claim C7: terminal statuses are never revisited -/

theorem ackOne_terminal {sp : List (JsNum × SentPacket)} {pn : JsNum} {rec : SentPacket}
    (h : assocGet sp pn = some rec) (hterm : rec.status ≠ .pending)
    (peerId : List Char) (log : List PacketLogEntry) (q : JsNum) :
    assocGet (ackOne peerId sp log q).1 pn = some rec := by
  unfold ackOne
  split
  · rename_i sent hq
    split
    · rename_i hpend
      by_cases hqp : q = pn
      · subst hqp
        rw [hq] at h
        rw [Option.some_inj] at h
        subst h
        exact absurd hpend hterm
      · have hne : pn ≠ q := fun he => hqp he.symm
        show assocGet (assocSet sp q _) pn = some rec
        rw [assocGet_assocSet_ne sp _ hne]
        exact h
    · exact h
  · exact h

theorem ackPnsRun_terminal (peerId : List Char) {pn : JsNum} {rec : SentPacket}
    (hterm : rec.status ≠ .pending) : ∀ (pns : List JsNum)
      {sp : List (JsNum × SentPacket)} (log : List PacketLogEntry),
      assocGet sp pn = some rec →
      assocGet (ackPnsRun peerId pns sp log).1 pn = some rec := by
  intro pns
  induction pns with
  | nil => intro sp log h; exact h
  | cons q rest ih =>
    intro sp log h
    have h1 := ackOne_terminal h hterm peerId log q
    unfold ackPnsRun
    split
    · rename_i sp1 log1 evs1 heq1
      rw [heq1] at h1
      split
      · rename_i sp2 log2 evs2 heq2
        have h2 := ih log1 h1
        rw [heq2] at h2
        exact h2

theorem ackRangesRun_terminal (peerId : List Char) {pn : JsNum} {rec : SentPacket}
    (hterm : rec.status ≠ .pending) : ∀ (acks : List AckRange)
      {sp : List (JsNum × SentPacket)} (log : List PacketLogEntry),
      assocGet sp pn = some rec →
      assocGet (ackRangesRun peerId acks sp log).1 pn = some rec := by
  intro acks
  induction acks with
  | nil => intro sp log h; exact h
  | cons r rest ih =>
    intro sp log h
    have h1 := ackPnsRun_terminal peerId hterm (ackPns r.1 r.2) log h
    unfold ackRangesRun
    split
    · rename_i sp1 log1 evs1 heq1
      rw [heq1] at h1
      split
      · rename_i sp2 log2 evs2 heq2
        have h2 := ih log1 h1
        rw [heq2] at h2
        exact h2

theorem processAcks_terminal {st : MeshState} {pid : List Char} {pn : JsNum}
    {rec : SentPacket} (h : lookupSent st pid pn = some rec)
    (hterm : rec.status ≠ .pending) (pid' : List Char) (acks : List AckRange) :
    lookupSent (processAcks st pid' acks).1 pid pn = some rec := by
  obtain ⟨peer, hpeer, hsp⟩ := lookupSent_eq_some h
  unfold processAcks
  split
  · exact h
  · rename_i peer1 hpeer1
    split
    · rename_i sp1 log1 evs1 heq1
      by_cases hp : pid = pid'
      · subst hp
        rw [hpeer1] at hpeer
        rw [Option.some_inj] at hpeer
        subst hpeer
        have h1 := ackRangesRun_terminal peer1.id hterm acks st.packetLog hsp
        rw [heq1] at h1
        unfold lookupSent
        simp only [assocGet_assocUpdate_self, hpeer1, Option.map_some', Option.bind_some]
        exact h1
      · unfold lookupSent
        simp only [assocGet_assocUpdate_ne _ _ hp, hpeer, Option.bind_some]
        exact hsp

/-- What one `checkRetries` sweep does to a single sent record. -/
def retireMark (now timeoutv : Int) (maxR : Nat) (sent : SentPacket) : SentPacket :=
  if sent.status = .pending ∧ timeoutv < now - sent.timestamp ∧ maxR ≤ sent.retries
  then { sent with status := .failed } else sent

theorem checkSent_fst (now timeoutv : Int) (maxR : Nat) (peerId : List Char) :
    ∀ (sp : List (JsNum × SentPacket)) (log : List PacketLogEntry),
      (checkSent now timeoutv maxR peerId sp log).1 =
        sp.map fun qs => (qs.1, retireMark now timeoutv maxR qs.2) := by
  intro sp
  induction sp with
  | nil => intro log; rfl
  | cons x rest ih =>
    obtain ⟨q, sent⟩ := x
    intro log
    unfold checkSent
    by_cases hc : sent.status = .pending ∧ timeoutv < now - sent.timestamp ∧ maxR ≤ sent.retries
    · rw [if_pos hc]
      dsimp only
      rw [ih (markLog log q peerId SentStatus.failed), List.map_cons]
      have hm : retireMark now timeoutv maxR sent = { sent with status := .failed } := by
        unfold retireMark
        rw [if_pos hc]
      rw [hm]
    · rw [if_neg hc]
      dsimp only
      rw [ih log, List.map_cons]
      have hm : retireMark now timeoutv maxR sent = sent := by
        unfold retireMark
        rw [if_neg hc]
      rw [hm]

/-- What one `checkRetries` sweep does to a whole peer record. -/
def retirePeer (now timeoutv : Int) (maxR : Nat) (p : Peer) : Peer :=
  { p with sentPackets := p.sentPackets.map fun qs => (qs.1, retireMark now timeoutv maxR qs.2) }

theorem checkPeers_fst (now timeoutv : Int) (maxR : Nat) :
    ∀ (peers : List (List Char × Peer)) (log : List PacketLogEntry),
      (checkPeers now timeoutv maxR peers log).1 =
        peers.map fun kp => (kp.1, retirePeer now timeoutv maxR kp.2) := by
  intro peers
  induction peers with
  | nil => intro log; rfl
  | cons x rest ih =>
    obtain ⟨k, peer⟩ := x
    intro log
    unfold checkPeers
    split
    · rename_i sp1 log1 evs1 heq1
      split
      · rename_i rest1 log2 evs2 heq2
        have hsp : sp1 = peer.sentPackets.map fun qs => (qs.1, retireMark now timeoutv maxR qs.2) := by
          rw [← checkSent_fst now timeoutv maxR peer.id peer.sentPackets log, heq1]
        have hr : rest1 = rest.map fun kp => (kp.1, retirePeer now timeoutv maxR kp.2) := by
          rw [← ih log1, heq2]
        show (k, { peer with sentPackets := sp1 }) :: rest1 = _
        rw [hsp, hr, List.map_cons]
        rfl

theorem assocGet_map {κ α β : Type} [DecidableEq κ] (g : α → β) :
    ∀ (l : List (κ × α)) (k : κ),
      assocGet (l.map fun x => (x.1, g x.2)) k = (assocGet l k).map g := by
  intro l
  induction l with
  | nil => intro k; rfl
  | cons x rest ih =>
    obtain ⟨k', v⟩ := x
    intro k
    by_cases h : k' = k
    · simp [assocGet, h]
    · simp [assocGet, h, ih]

/-- `checkRetries` acts pointwise on sent records: the record a peer holds
for a packet number is exactly the old record passed through
`retireMark`. -/
theorem checkRetries_lookup (st : MeshState) (now : Int) (pid : List Char) (pn : JsNum) :
    lookupSent (checkRetries st now).1 pid pn =
      (lookupSent st pid pn).map (retireMark now st.retryTimeout st.maxRetries) := by
  unfold checkRetries
  split
  · rename_i peers1 log1 evs1 heq1
    have hp : peers1 = st.peers.map fun kp =>
        (kp.1, retirePeer now st.retryTimeout st.maxRetries kp.2) := by
      rw [← checkPeers_fst now st.retryTimeout st.maxRetries st.peers st.packetLog, heq1]
    unfold lookupSent
    show (assocGet peers1 pid).bind _ = _
    rw [hp, assocGet_map]
    cases assocGet st.peers pid with
    | none => rfl
    | some peer =>
      show assocGet (retirePeer now st.retryTimeout st.maxRetries peer).sentPackets pn = _
      unfold retirePeer
      show assocGet (peer.sentPackets.map _) pn = _
      rw [assocGet_map]
      rfl

theorem markDisplayed_terminal {st : MeshState} {pid : List Char} {pn : JsNum}
    {rec : SentPacket} (h : lookupSent st pid pn = some rec)
    (hterm : rec.status ≠ .pending) (now : Int) (pkt : QRPacket) :
    lookupSent (markPacketDisplayed st now pkt) pid pn = some rec := by
  obtain ⟨peer, hpeer, hsp⟩ := lookupSent_eq_some h
  unfold markPacketDisplayed
  split
  · exact h
  · rename_i peer1 hpeer1
    split
    · rename_i sent hsent
      split
      · rename_i hpend
        by_cases hp : pid = pkt.dst
        · subst hp
          rw [hpeer1] at hpeer
          rw [Option.some_inj] at hpeer
          subst hpeer
          by_cases hq : pn = pkt.pn
          · subst hq
            rw [hsent] at hsp
            rw [Option.some_inj] at hsp
            subst hsp
            exact absurd hpend hterm
          · unfold lookupSent
            simp only [assocGet_assocUpdate_self, hpeer1, Option.map_some', Option.bind_some]
            show assocGet (assocSet peer1.sentPackets pkt.pn _) pn = some rec
            rw [assocGet_assocSet_ne _ _ hq]
            exact hsp
        · unfold lookupSent
          simp only [assocGet_assocUpdate_ne _ _ hp, hpeer, Option.bind_some]
          exact hsp
      · exact h
    · exact h

/-- The state-mutating operations of claim C7, applied in any order. -/
inductive MeshOp where
  | acks (peerId : List Char) (acks : List AckRange)
  | retries (now : Int)
  | display (now : Int) (packet : QRPacket)

/-- Apply one C7 operation to the mesh state. -/
def applyMeshOp (st : MeshState) : MeshOp → MeshState
  | .acks pid a => (processAcks st pid a).1
  | .retries now => (checkRetries st now).1
  | .display now pkt => markPacketDisplayed st now pkt

/-- Claim C7: sent-packet status is monotone.  Once a sent record has
reached a terminal status (`acked` or `failed`, i.e. anything other than
`pending`), any sequence of subsequent operations — ACK processing,
retry checking, display marking, in any order and with any arguments —
leaves the record (and in particular its status) unchanged; it never
returns to `pending`. -/
theorem C7_terminal_monotone (st : MeshState) (pid : List Char) (pn : JsNum)
    (rec : SentPacket) (h : lookupSent st pid pn = some rec)
    (hterm : rec.status ≠ .pending) (ops : List MeshOp) :
    lookupSent (ops.foldl applyMeshOp st) pid pn = some rec := by
  induction ops generalizing st with
  | nil => exact h
  | cons op rest ih =>
    rw [List.foldl_cons]
    refine ih (applyMeshOp st op) ?_
    cases op with
    | acks pid' a => exact processAcks_terminal h hterm pid' a
    | retries now =>
      show lookupSent (checkRetries st now).1 pid pn = some rec
      rw [checkRetries_lookup, h, Option.map_some']
      have hm : retireMark now st.retryTimeout st.maxRetries rec = rec := by
        unfold retireMark
        rw [if_neg (fun hc => hterm hc.1)]
      rw [hm]
    | display now pkt => exact markDisplayed_terminal h hterm now pkt

/-- The packet of the C7 witness. -/
def c7Pkt : QRPacket :=
  { v := 3, t := PacketType.D, src := ['A'], dst := ['B'], pn := some 4 }

/-- The terminal (acked) record of the C7 witness. -/
def c7Rec : SentPacket :=
  { packet := c7Pkt, timestamp := 0, retries := 1, status := SentStatus.acked }

/-- The peer of the C7 witness. -/
def c7Peer : Peer := { id := ['B'], lastSeen := 0, sentPackets := [(some 4, c7Rec)] }

/-- The state of the C7 witness: one peer holding one acked record. -/
def c7State : MeshState := { deviceId := ['A'], peers := [(['B'], c7Peer)] }

/-- Claim C7 witness: an acked record survives a concrete burst of ACK
processing, a retry sweep far past the timeout, and a display mark,
unchanged. -/
theorem C7_terminal_monotone_witness :
    lookupSent
      ([MeshOp.acks ['B'] [(some 4, some 4)], MeshOp.retries 99999,
        MeshOp.display 99999 c7Pkt].foldl applyMeshOp c7State) ['B'] (some 4) =
      some c7Rec :=
  C7_terminal_monotone c7State ['B'] (some 4) c7Rec (by decide) (by decide)
    [MeshOp.acks ['B'] [(some 4, some 4)], MeshOp.retries 99999,
      MeshOp.display 99999 c7Pkt]

/-! ## Claim C8: retry exhaustion fails a packet exactly once -/

/-- The retirement condition of `checkRetries`, as a Boolean test. -/
def retireTest (now timeoutv : Int) (maxR : Nat) (sent : SentPacket) : Bool :=
  decide (sent.status = .pending ∧ timeoutv < now - sent.timestamp ∧ maxR ≤ sent.retries)

theorem checkSent_events (now timeoutv : Int) (maxR : Nat) (peerId : List Char) :
    ∀ (sp : List (JsNum × SentPacket)) (log : List PacketLogEntry),
      (checkSent now timeoutv maxR peerId sp log).2.2 =
        (sp.filter fun qs => retireTest now timeoutv maxR qs.2).map
          fun qs => MeshEvent.packet_failed qs.1 peerId := by
  intro sp
  induction sp with
  | nil => intro log; rfl
  | cons x rest ih =>
    obtain ⟨q, sent⟩ := x
    intro log
    unfold checkSent
    by_cases hc : sent.status = .pending ∧ timeoutv < now - sent.timestamp ∧ maxR ≤ sent.retries
    · rw [if_pos hc]
      dsimp only
      rw [ih (markLog log q peerId SentStatus.failed)]
      have ht : retireTest now timeoutv maxR sent = true := by
        unfold retireTest
        exact decide_eq_true hc
      simp [List.filter_cons, ht]
    · rw [if_neg hc]
      dsimp only
      rw [ih log]
      have ht : retireTest now timeoutv maxR sent = false := by
        unfold retireTest
        exact decide_eq_false hc
      simp [List.filter_cons, ht]

theorem checkPeers_events (now timeoutv : Int) (maxR : Nat) :
    ∀ (peers : List (List Char × Peer)) (log : List PacketLogEntry),
      (checkPeers now timeoutv maxR peers log).2.2 =
        peers.flatMap fun kp =>
          (kp.2.sentPackets.filter fun qs => retireTest now timeoutv maxR qs.2).map
            fun qs => MeshEvent.packet_failed qs.1 kp.2.id := by
  intro peers
  induction peers with
  | nil => intro log; rfl
  | cons x rest ih =>
    obtain ⟨k, peer⟩ := x
    intro log
    unfold checkPeers
    split
    · rename_i sp1 log1 evs1 heq1
      split
      · rename_i rest1 log2 evs2 heq2
        have he1 : evs1 = (peer.sentPackets.filter fun qs =>
            retireTest now timeoutv maxR qs.2).map
              fun qs => MeshEvent.packet_failed qs.1 peer.id := by
          rw [← checkSent_events now timeoutv maxR peer.id peer.sentPackets log, heq1]
        have he2 : evs2 = rest.flatMap fun kp =>
            (kp.2.sentPackets.filter fun qs => retireTest now timeoutv maxR qs.2).map
              fun qs => MeshEvent.packet_failed qs.1 kp.2.id := by
          rw [← ih log1, heq2]
        show evs1 ++ evs2 = _
        rw [he1, he2, List.flatMap_cons]

theorem count_map_failed (pid : List Char) (pn : JsNum) :
    ∀ (L : List (JsNum × SentPacket)),
      ((L.map fun qs => MeshEvent.packet_failed qs.1 pid).count
          (MeshEvent.packet_failed pn pid)) =
        (L.filter fun qs => qs.1 == pn).length := by
  intro L
  induction L with
  | nil => rfl
  | cons x L ih =>
    by_cases hx : x.1 = pn
    · simp [List.count_cons, List.filter_cons, hx, ih]
    · simp [List.count_cons, List.filter_cons, hx, ih, MeshEvent.packet_failed.injEq]

theorem count_map_failed_ne {idv pid : List Char} (hne : idv ≠ pid) (pn : JsNum) :
    ∀ (L : List (JsNum × SentPacket)),
      ((L.map fun qs => MeshEvent.packet_failed qs.1 idv).count
          (MeshEvent.packet_failed pn pid)) = 0 := by
  intro L
  induction L with
  | nil => rfl
  | cons x L ih =>
    simp [List.count_cons, ih, MeshEvent.packet_failed.injEq, hne]

theorem filter_key_nil (pn : JsNum) (g : JsNum × SentPacket → Bool) :
    ∀ (L : List (JsNum × SentPacket)), pn ∉ L.map Prod.fst →
      L.filter (fun qs => qs.1 == pn && g qs) = [] := by
  intro L
  induction L with
  | nil => intro _; rfl
  | cons x L ih =>
    intro hmem
    simp only [List.map_cons, List.mem_cons, not_or] at hmem
    have hx : (x.1 == pn) = false := by
      rw [beq_eq_false_iff_ne]
      exact fun he => hmem.1 he.symm
    simp [List.filter_cons, hx, ih hmem.2]

theorem filter_key_length (pn : JsNum) (g : SentPacket → Bool) :
    ∀ (L : List (JsNum × SentPacket)), (L.map Prod.fst).Nodup →
      (L.filter fun qs => qs.1 == pn && g qs.2).length =
        (match assocGet L pn with
         | some r => if g r then 1 else 0
         | none => 0) := by
  intro L
  induction L with
  | nil => intro _; rfl
  | cons x L ih =>
    intro hnd
    obtain ⟨q, v⟩ := x
    simp only [List.map_cons, List.nodup_cons] at hnd
    by_cases hq : q = pn
    · subst hq
      have hz := filter_key_nil q (fun qs => g qs.2) L hnd.1
      show ((q, v) :: L |>.filter fun qs => qs.1 == q && g qs.2).length = _
      rw [List.filter_cons]
      simp only [beq_self_eq_true, Bool.true_and]
      show _ = (match assocGet ((q, v) :: L) q with
         | some r => if g r then 1 else 0
         | none => 0)
      rw [show assocGet ((q, v) :: L) q = some v by simp [assocGet]]
      by_cases hg : g v
      · simp [hg, hz]
      · simp [hg, hz]
    · have hx : (q == pn) = false := beq_eq_false_iff_ne.mpr hq
      rw [List.filter_cons]
      simp only [hx, Bool.false_and]
      rw [show assocGet ((q, v) :: L) pn = assocGet L pn by simp [assocGet, hq]]
      simpa using ih hnd.2

/-- The bookkeeping discipline `MeshState` maintains for its `Map`s:
peer keys are distinct and each peer record carries its own key as `id`,
and each sent table has distinct packet-number keys. -/
def stateKeysOk (st : MeshState) : Bool :=
  decide ((st.peers.map Prod.fst).Nodup) &&
  st.peers.all fun kp => kp.2.id == kp.1 && decide ((kp.2.sentPackets.map Prod.fst).Nodup)

theorem peers_failed_count_zero (now timeoutv : Int) (maxR : Nat) (pid : List Char)
    (pn : JsNum) : ∀ (peers : List (List Char × Peer)),
      (∀ kp ∈ peers, kp.2.id ≠ pid) →
      ((peers.flatMap fun kp =>
          (kp.2.sentPackets.filter fun qs => retireTest now timeoutv maxR qs.2).map
            fun qs => MeshEvent.packet_failed qs.1 kp.2.id).count
        (MeshEvent.packet_failed pn pid)) = 0 := by
  intro peers
  induction peers with
  | nil => intro _; rfl
  | cons x rest ih =>
    intro hne
    rw [List.flatMap_cons, List.count_append]
    rw [count_map_failed_ne (hne x (by simp)) pn]
    rw [ih fun kp hm => hne kp (by simp [hm])]

theorem peers_failed_count (now timeoutv : Int) (maxR : Nat) (pid : List Char)
    (pn : JsNum) : ∀ (peers : List (List Char × Peer)),
      (peers.map Prod.fst).Nodup →
      (∀ kp ∈ peers, kp.2.id = kp.1 ∧ (kp.2.sentPackets.map Prod.fst).Nodup) →
      ((peers.flatMap fun kp =>
          (kp.2.sentPackets.filter fun qs => retireTest now timeoutv maxR qs.2).map
            fun qs => MeshEvent.packet_failed qs.1 kp.2.id).count
        (MeshEvent.packet_failed pn pid)) =
        (match (assocGet peers pid).bind fun p => assocGet p.sentPackets pn with
         | some r => if retireTest now timeoutv maxR r then 1 else 0
         | none => 0) := by
  intro peers
  induction peers with
  | nil => intro _ _; rfl
  | cons x rest ih =>
    intro hnd hids
    obtain ⟨k, peer⟩ := x
    obtain ⟨hid, hsnd⟩ := hids (k, peer) (by simp)
    simp only [List.map_cons, List.nodup_cons] at hnd
    rw [List.flatMap_cons, List.count_append]
    by_cases hk : k = pid
    · subst hk
      have hz : ∀ kp ∈ rest, kp.2.id ≠ k := by
        intro kp hm he
        exact hnd.1 (by
          rw [(hids kp (by simp [hm])).1] at he
          rw [← he]
          exact List.mem_map_of_mem Prod.fst hm)
      rw [peers_failed_count_zero now timeoutv maxR k pn rest hz, Nat.add_zero]
      rw [hid]
      rw [count_map_failed k pn]
      rw [List.filter_filter]
      rw [filter_key_length pn (retireTest now timeoutv maxR) peer.sentPackets hsnd]
      rw [show assocGet ((k, peer) :: rest) k = some peer by simp [assocGet]]
      rfl
    · rw [count_map_failed_ne (by rw [hid]; exact hk) pn, Nat.zero_add]
      rw [show assocGet ((k, peer) :: rest) pid = assocGet rest pid by simp [assocGet, hk]]
      exact ih hnd.2 fun kp hm => hids kp (by simp [hm])

theorem checkRetries_events (st : MeshState) (now : Int) :
    (checkRetries st now).2 =
      (checkPeers now st.retryTimeout st.maxRetries st.peers st.packetLog).2.2 := by
  unfold checkRetries
  split
  rename_i peers1 log1 evs1 heq1
  show evs1 = _
  rw [heq1]

theorem checkRetries_peers (st : MeshState) (now : Int) :
    (checkRetries st now).1.peers =
      st.peers.map fun kp => (kp.1, retirePeer now st.retryTimeout st.maxRetries kp.2) := by
  unfold checkRetries
  split
  rename_i peers1 log1 evs1 heq1
  show peers1 = _
  rw [← checkPeers_fst now st.retryTimeout st.maxRetries st.peers st.packetLog, heq1]

theorem checkRetries_config (st : MeshState) (now : Int) :
    (checkRetries st now).1.retryTimeout = st.retryTimeout ∧
    (checkRetries st now).1.maxRetries = st.maxRetries := by
  unfold checkRetries
  split
  exact ⟨rfl, rfl⟩

/-- How many `packet_failed pn pid` events one `checkRetries` sweep
raises, for a state with well-kept map keys: one if that peer currently
holds a retirable record for that packet number, zero otherwise. -/
theorem checkRetries_failed_count (st : MeshState) (now : Int) (pid : List Char)
    (pn : JsNum) (hok : stateKeysOk st = true) :
    ((checkRetries st now).2.count (MeshEvent.packet_failed pn pid)) =
      (match lookupSent st pid pn with
       | some r => if retireTest now st.retryTimeout st.maxRetries r then 1 else 0
       | none => 0) := by
  unfold stateKeysOk at hok
  rw [Bool.and_eq_true] at hok
  have hnd := of_decide_eq_true hok.1
  have hall := hok.2
  rw [List.all_eq_true] at hall
  rw [checkRetries_events, checkPeers_events]
  rw [peers_failed_count now st.retryTimeout st.maxRetries pid pn st.peers hnd]
  · rfl
  · intro kp hm
    have := hall kp hm
    rw [Bool.and_eq_true] at this
    exact ⟨beq_iff_eq.mp this.1, of_decide_eq_true this.2⟩

theorem stateKeysOk_checkRetries (st : MeshState) (now : Int)
    (hok : stateKeysOk st = true) : stateKeysOk (checkRetries st now).1 = true := by
  unfold stateKeysOk at hok ⊢
  rw [Bool.and_eq_true] at hok
  have hnd := of_decide_eq_true hok.1
  have hall := hok.2
  rw [List.all_eq_true] at hall
  rw [checkRetries_peers]
  rw [Bool.and_eq_true]
  constructor
  · rw [List.map_map]
    rw [show (Prod.fst ∘ fun kp : List Char × Peer =>
        (kp.1, retirePeer now st.retryTimeout st.maxRetries kp.2)) = Prod.fst from rfl]
    exact decide_eq_true hnd
  · rw [List.all_eq_true]
    intro kp hm
    rw [List.mem_map] at hm
    obtain ⟨kp0, hm0, hkp⟩ := hm
    have h0 := hall kp0 hm0
    rw [Bool.and_eq_true] at h0
    subst hkp
    rw [Bool.and_eq_true]
    constructor
    · show (retirePeer now st.retryTimeout st.maxRetries kp0.2).id == kp0.1
      unfold retirePeer
      exact h0.1
    · show decide ((((retirePeer now st.retryTimeout st.maxRetries kp0.2).sentPackets).map
        Prod.fst).Nodup) = true
      unfold retirePeer
      rw [List.map_map]
      rw [show (Prod.fst ∘ fun qs : JsNum × SentPacket =>
          (qs.1, retireMark now st.retryTimeout st.maxRetries qs.2)) = Prod.fst from rfl]
      exact h0.2

/-- Claim C8: retry exhaustion.  In a state with well-kept map keys, a
`pending` sent packet whose age exceeds the retry timeout and whose retry
count is at or over the budget is moved to `failed` by the next
`checkRetries` sweep, which raises `packet_failed` for it exactly once;
a subsequent `checkRetries` sweep (at any later or other time) raises no
further `packet_failed` for that packet. -/
theorem C8_retry_exhaustion (st : MeshState) (now nowLater : Int) (pid : List Char)
    (pn : JsNum) (rec : SentPacket) (hok : stateKeysOk st = true)
    (h : lookupSent st pid pn = some rec) (hpend : rec.status = .pending)
    (hage : st.retryTimeout < now - rec.timestamp)
    (hbudget : st.maxRetries ≤ rec.retries) :
    lookupSent (checkRetries st now).1 pid pn = some { rec with status := .failed } ∧
    ((checkRetries st now).2.count (MeshEvent.packet_failed pn pid)) = 1 ∧
    ((checkRetries (checkRetries st now).1 nowLater).2.count
      (MeshEvent.packet_failed pn pid)) = 0 := by
  have hcond : rec.status = .pending ∧ st.retryTimeout < now - rec.timestamp ∧
      st.maxRetries ≤ rec.retries := ⟨hpend, hage, hbudget⟩
  have hmark : retireMark now st.retryTimeout st.maxRetries rec =
      { rec with status := .failed } := by
    unfold retireMark
    rw [if_pos hcond]
  have h1 : lookupSent (checkRetries st now).1 pid pn =
      some { rec with status := .failed } := by
    rw [checkRetries_lookup, h, Option.map_some', hmark]
  refine ⟨h1, ?_, ?_⟩
  · rw [checkRetries_failed_count st now pid pn hok, h]
    have ht : retireTest now st.retryTimeout st.maxRetries rec = true :=
      decide_eq_true hcond
    simp [ht]
  · rw [checkRetries_failed_count (checkRetries st now).1 nowLater pid pn
      (stateKeysOk_checkRetries st now hok), h1]
    have ht : retireTest nowLater (checkRetries st now).1.retryTimeout
        (checkRetries st now).1.maxRetries { rec with status := .failed } = false := by
      unfold retireTest
      exact decide_eq_false fun hc => by cases hc.1
    simp [ht]

/-- The packet of the C8 witness. -/
def c8Pkt : QRPacket :=
  { v := 3, t := PacketType.D, src := ['A'], dst := ['B'], pn := some 2 }

/-- The exhausted pending record of the C8 witness: displayed three
times (the full budget) and last refreshed at time 0. -/
def c8Rec : SentPacket :=
  { packet := c8Pkt, timestamp := 0, retries := 3, status := SentStatus.pending }

/-- The peer of the C8 witness. -/
def c8Peer : Peer := { id := ['B'], lastSeen := 0, sentPackets := [(some 2, c8Rec)] }

/-- The state of the C8 witness (default `retryTimeout = 3000`,
`maxRetries = 3`). -/
def c8State : MeshState := { deviceId := ['A'], peers := [(['B'], c8Peer)] }

/-- Claim C8 witness: at time 5000 the exhausted record fails with one
`packet_failed`, and a later sweep at time 1000000 raises none. -/
theorem C8_retry_exhaustion_witness :
    lookupSent (checkRetries c8State 5000).1 ['B'] (some 2) =
      some { packet := c8Pkt, timestamp := 0, retries := 3,
             status := SentStatus.failed } ∧
    ((checkRetries c8State 5000).2.count (MeshEvent.packet_failed (some 2) ['B'])) = 1 ∧
    ((checkRetries (checkRetries c8State 5000).1 1000000).2.count
      (MeshEvent.packet_failed (some 2) ['B'])) = 0 :=
  C8_retry_exhaustion c8State 5000 1000000 ['B'] (some 2) c8Rec (by decide) (by decide)
    (by decide) (by decide) (by decide)

/-! ## Claim C2: sendChat -/

/-- Claim C2 (amended): `sendChat` fails with an unknown-peer error (and
`-1`) when no peer record exists; for a known peer it allocates the next
global packet number, piggybacks the peer's current receive-range SACK
when nonempty, registers the packet as `pending` under that number,
emits `packet_sent` and a `chat_message`, and returns the number — but
the payload is always the raw text and the chat message is recorded
`encrypted := false`: the source never encrypts, whether or not a shared
key exists. -/
theorem C2_send_chat (st : MeshState) (now : Int) (pid text : List Char) :
    (assocGet st.peers pid = none →
      sendChat st now pid text =
        (st, [MeshEvent.error ("Unknown peer: ".toList ++ pid)], -1)) ∧
    ∀ peer, assocGet st.peers pid = some peer →
      (sendChat st now pid text).2 =
        ([MeshEvent.packet_sent (createDataPacket st.deviceId pid
            (some (st.globalPn : Int)) MessageTypes.CHAT text
            (if 0 < peer.receivedPns.length then some peer.receivedPns else none)),
          MeshEvent.chat_message { peerId := pid, direction := .sent, text := text, timestamp := now, encrypted := false, pn := some (st.globalPn : Int) }],
          (st.globalPn : Int)) ∧
      (sendChat st now pid text).1.globalPn = st.globalPn + 1 ∧
      lookupSent (sendChat st now pid text).1 pid (some (st.globalPn : Int)) =
        some ⟨createDataPacket st.deviceId pid (some (st.globalPn : Int))
                MessageTypes.CHAT text
                (if 0 < peer.receivedPns.length then some peer.receivedPns else none),
              now, 0, .pending⟩ ∧
      (createDataPacket st.deviceId pid (some (st.globalPn : Int)) MessageTypes.CHAT text
          (if 0 < peer.receivedPns.length then some peer.receivedPns else none)).payload =
        some text := by
  constructor
  · intro hnone
    unfold sendChat
    rw [hnone]
  · intro peer hget
    unfold sendChat
    rw [hget]
    dsimp only
    refine ⟨rfl, rfl, ?_, rfl⟩
    unfold lookupSent trackSentPacket logPacket
    dsimp only
    simp only [assocGet_assocUpdate_self, hget, Option.map_some', Option.bind_some]
    exact assocGet_assocSet_self _ _ _

/-- The active peer of the C2 counterexample: a shared key HAS been
derived. -/
def c2Peer : Peer := { id := ['B'], lastSeen := 0, sharedKey := some () }

/-- The state of the C2 counterexample. -/
def c2State : MeshState := { deviceId := ['A'], peers := [(['B'], c2Peer)] }

/-- Claim C2 counterexample: even though the peer is active (a shared
secret exists), the sent packet's payload is the raw chat text and the
recorded chat message says `encrypted := false` — `sendChat` never
encrypts. -/
theorem C2_plaintext_despite_active_peer :
    c2Peer.sharedKey.isSome = true ∧
    (sendChat c2State 0 ['B'] ['h', 'i']).2.1 =
      [MeshEvent.packet_sent { v := 3, t := PacketType.D, src := ['A'], dst := ['B'], pn := some 0, mt := some 'C', payload := some ['h', 'i'] },
       MeshEvent.chat_message { peerId := ['B'], direction := Dir.sent, text := ['h', 'i'], timestamp := 0, encrypted := false, pn := some 0 }] := by
  decide

/-- The peer of the C2 witness, with a nonempty receive-range SACK to
piggyback. -/
def c2WPeer : Peer := { id := ['B'], lastSeen := 0, receivedPns := [(some 1, some 2)] }

/-- The state of the C2 witness. -/
def c2WState : MeshState := { deviceId := ['A'], peers := [(['B'], c2WPeer)], globalPn := 5 }

/-- The packet the C2 witness expects `sendChat` to emit. -/
def c2WPacket : QRPacket :=
  createDataPacket c2WState.deviceId ['B'] (some (c2WState.globalPn : Int))
    MessageTypes.CHAT ['y', 'o']
    (if 0 < c2WPeer.receivedPns.length then some c2WPeer.receivedPns else none)

/-- The chat message the C2 witness expects `sendChat` to record. -/
def c2WMsg : ChatMessage :=
  { peerId := ['B'], direction := .sent, text := ['y', 'o'], timestamp := 7,
    encrypted := false, pn := some (c2WState.globalPn : Int) }

/-- Claim C2 witness: a concrete known-peer send emits the tracked
packet and chat message and returns packet number 5. -/
theorem C2_send_chat_witness :
    (sendChat c2WState 7 ['B'] ['y', 'o']).2 =
      ([MeshEvent.packet_sent c2WPacket, MeshEvent.chat_message c2WMsg],
        (c2WState.globalPn : Int)) :=
  ((C2_send_chat c2WState 7 ['B'] ['y', 'o']).2 c2WPeer (by decide)).1

/-! ## Claim C9: outgoing-packet selection -/

/-- All packets of sent records matching a predicate, in table order. -/
def matchingPackets (pred : SentPacket → Bool) (peers : List (List Char × Peer)) :
    List QRPacket :=
  peers.flatMap fun kp => (kp.2.sentPackets.filter fun qs => pred qs.2).map
    fun qs => qs.2.packet

theorem scanPeer_spec (maxPackets : Nat) (pred : SentPacket → Bool) :
    ∀ (sp : List (JsNum × SentPacket)) (acc : List QRPacket), acc.length < maxPackets →
      scanPeer maxPackets pred sp acc =
        (if maxPackets ≤ acc.length +
            ((sp.filter fun qs => pred qs.2).map fun qs => qs.2.packet).length
         then ((acc ++ (sp.filter fun qs => pred qs.2).map fun qs => qs.2.packet).take
            maxPackets, true)
         else (acc ++ (sp.filter fun qs => pred qs.2).map fun qs => qs.2.packet, false)) := by
  intro sp
  induction sp with
  | nil =>
    intro acc hacc
    rw [if_neg (by simp; omega)]
    simp [scanPeer]
  | cons x rest ih =>
    obtain ⟨q, sent⟩ := x
    intro acc hacc
    unfold scanPeer
    by_cases hp : pred sent
    · rw [if_pos hp]
      dsimp only
      by_cases hstop : maxPackets ≤ (acc ++ [sent.packet]).length
      · rw [if_pos hstop]
        simp only [List.length_append, List.length_cons] at hstop
        have hmax : maxPackets = acc.length + 1 := by simp at hstop; omega
        rw [if_pos (by simp [List.filter_cons, hp]; omega)]
        simp only [List.filter_cons, hp, if_pos, List.map_cons]
        rw [show acc ++ sent.packet ::
            ((rest.filter fun qs => pred qs.2).map fun qs => qs.2.packet) =
          (acc ++ [sent.packet]) ++
            ((rest.filter fun qs => pred qs.2).map fun qs => qs.2.packet) by simp]
        rw [show maxPackets = (acc ++ [sent.packet]).length by simp [hmax]]
        rw [List.take_left]
      · rw [if_neg hstop]
        simp only [List.length_append, List.length_cons, List.length_nil] at hstop
        have hlt : (acc ++ [sent.packet]).length < maxPackets := by simp; omega
        rw [ih (acc ++ [sent.packet]) hlt]
        simp only [List.filter_cons, hp, if_pos, List.map_cons, List.length_append,
          List.length_cons, List.length_map]
        by_cases hc : maxPackets ≤ acc.length + 1 +
            ((rest.filter fun qs => pred qs.2).length)
        · rw [if_pos (by simp; omega), if_pos (by simp [List.length_map] at *; omega)]
          simp [List.append_assoc]
        · rw [if_neg (by simp [List.length_map] at *; omega),
            if_neg (by simp [List.length_map] at *; omega)]
          simp [List.append_assoc]
    · rw [if_neg hp]
      rw [ih acc hacc]
      simp [List.filter_cons, hp]

theorem scanSent_spec (maxPackets : Nat) (pred : SentPacket → Bool) :
    ∀ (peers : List (List Char × Peer)) (acc : List QRPacket),
      acc.length < maxPackets →
      scanSent maxPackets pred peers acc =
        (if maxPackets ≤ acc.length + (matchingPackets pred peers).length
         then ((acc ++ matchingPackets pred peers).take maxPackets, true)
         else (acc ++ matchingPackets pred peers, false)) := by
  intro peers
  induction peers with
  | nil =>
    intro acc hacc
    rw [if_neg (by simp [matchingPackets]; omega)]
    simp [scanSent, matchingPackets]
  | cons x rest ih =>
    obtain ⟨k, peer⟩ := x
    intro acc hacc
    unfold scanSent
    rw [scanPeer_spec maxPackets pred peer.sentPackets acc hacc]
    have hmp : matchingPackets pred ((k, peer) :: rest) =
        ((peer.sentPackets.filter fun qs => pred qs.2).map fun qs => qs.2.packet) ++
          matchingPackets pred rest := by
      simp [matchingPackets, List.flatMap_cons]
    by_cases h1 : maxPackets ≤ acc.length +
        ((peer.sentPackets.filter fun qs => pred qs.2).map fun qs => qs.2.packet).length
    · rw [if_pos h1]
      dsimp only
      rw [hmp]
      rw [if_pos (by simp only [List.length_append, List.length_map] at *; omega)]
      rw [show acc ++ (((peer.sentPackets.filter fun qs => pred qs.2).map
          fun qs => qs.2.packet) ++ matchingPackets pred rest) =
        (acc ++ ((peer.sentPackets.filter fun qs => pred qs.2).map
          fun qs => qs.2.packet)) ++ matchingPackets pred rest by simp]
      have htake : ((acc ++ ((peer.sentPackets.filter fun qs => pred qs.2).map
          fun qs => qs.2.packet)) ++ matchingPackets pred rest).take maxPackets =
          (acc ++ ((peer.sentPackets.filter fun qs => pred qs.2).map
            fun qs => qs.2.packet)).take maxPackets :=
        List.take_append_of_le_length
          (by simp only [List.length_append, List.length_map] at *; omega)
      rw [htake]
    · rw [if_neg h1]
      dsimp only
      rw [ih (acc ++ (peer.sentPackets.filter fun qs => pred qs.2).map
        fun qs => qs.2.packet)
        (by simp only [List.length_append, List.length_map] at *; omega)]
      rw [hmp]
      by_cases h2 : maxPackets ≤ acc.length +
          (((peer.sentPackets.filter fun qs => pred qs.2).map fun qs => qs.2.packet) ++
            matchingPackets pred rest).length
      · rw [if_pos (by simp only [List.length_append, List.length_map] at *; omega),
          if_pos h2]
        simp [List.append_assoc]
      · rw [if_neg (by simp only [List.length_append, List.length_map] at *; omega),
          if_neg h2]
        simp [List.append_assoc]

theorem createBeacon_pure (st : MeshState) :
    (createBeacon st).2.peers = st.peers ∧ (createBeacon st).2.globalPn = st.globalPn ∧
    (createBeacon st).2.packetLog = st.packetLog ∧
    (createBeacon st).2.chatHistory = st.chatHistory := by
  unfold createBeacon
  split
  · exact ⟨rfl, rfl, rfl, rfl⟩
  · exact ⟨rfl, rfl, rfl, rfl⟩

/-- Claim C9: `getOutgoingPackets` selects in strict priority order —
retransmission-due pending packets (aged past the retry timeout, retry
count under the budget) first, then fresh pending packets, truncated to
`maxPackets`; when nothing at all is pending the cached minimal beacon
is returned — and computing the candidates mutates no tracking state:
peers (hence display timestamps and retry counts), the global packet
number, the packet log and the chat history are all unchanged (only the
beacon cache may be filled). -/
theorem C9_outgoing_priority (st : MeshState) (now : Int) (maxPackets : Nat)
    (hmax : 1 ≤ maxPackets) :
    (getOutgoingPackets st now maxPackets).1 =
      (if matchingPackets (retryDueCond now st.retryTimeout st.maxRetries) st.peers ++
          matchingPackets (freshCond now st.retryTimeout) st.peers = []
       then [(createBeacon st).1]
       else (matchingPackets (retryDueCond now st.retryTimeout st.maxRetries) st.peers ++
          matchingPackets (freshCond now st.retryTimeout) st.peers).take maxPackets) ∧
    (getOutgoingPackets st now maxPackets).2.peers = st.peers ∧
    (getOutgoingPackets st now maxPackets).2.globalPn = st.globalPn ∧
    (getOutgoingPackets st now maxPackets).2.packetLog = st.packetLog ∧
    (getOutgoingPackets st now maxPackets).2.chatHistory = st.chatHistory := by
  unfold getOutgoingPackets
  rw [scanSent_spec maxPackets (retryDueCond now st.retryTimeout st.maxRetries) st.peers []
    (by simp only [List.length_nil]; omega)]
  by_cases h1 : maxPackets ≤ ([] : List QRPacket).length +
      (matchingPackets (retryDueCond now st.retryTimeout st.maxRetries) st.peers).length
  · rw [if_pos h1]
    dsimp only
    have hrne : matchingPackets (retryDueCond now st.retryTimeout st.maxRetries)
        st.peers ≠ [] := by
      intro he
      rw [he] at h1
      simp only [List.length_nil, Nat.add_zero] at h1
      omega
    rw [if_neg (fun he => hrne (List.append_eq_nil.mp he).1)]
    refine ⟨?_, rfl, rfl, rfl, rfl⟩
    simp only [List.nil_append]
    rw [List.take_append_of_le_length (by simpa using h1)]
  · rw [if_neg h1]
    dsimp only
    rw [scanSent_spec maxPackets (freshCond now st.retryTimeout) st.peers _
      (by simp only [List.nil_append, List.length_nil] at h1 ⊢; omega)]
    by_cases h2 : maxPackets ≤
        ([] ++ matchingPackets (retryDueCond now st.retryTimeout st.maxRetries)
          st.peers).length +
        (matchingPackets (freshCond now st.retryTimeout) st.peers).length
    · rw [if_pos h2]
      dsimp only
      have hne : matchingPackets (retryDueCond now st.retryTimeout st.maxRetries) st.peers ++
          matchingPackets (freshCond now st.retryTimeout) st.peers ≠ [] := by
        intro he
        obtain ⟨hr, hf⟩ := List.append_eq_nil.mp he
        rw [hr, hf] at h2
        simp only [List.append_nil, List.nil_append, List.length_nil, Nat.add_zero,
          Nat.le_zero] at h2
        omega
      rw [if_neg hne]
      refine ⟨?_, rfl, rfl, rfl, rfl⟩
      simp only [List.nil_append]
    · rw [if_neg h2]
      dsimp only
      by_cases hemp : (([] ++ matchingPackets (retryDueCond now st.retryTimeout
          st.maxRetries) st.peers) ++
          matchingPackets (freshCond now st.retryTimeout) st.peers).isEmpty
      · rw [if_pos hemp]
        have he : matchingPackets (retryDueCond now st.retryTimeout st.maxRetries) st.peers ++
            matchingPackets (freshCond now st.retryTimeout) st.peers = [] := by
          rw [List.isEmpty_iff] at hemp
          simpa using hemp
        rw [if_pos he]
        have hp := createBeacon_pure st
        exact ⟨rfl, hp.1, hp.2.1, hp.2.2.1, hp.2.2.2⟩
      · rw [if_neg hemp]
        have hne : matchingPackets (retryDueCond now st.retryTimeout st.maxRetries) st.peers ++
            matchingPackets (freshCond now st.retryTimeout) st.peers ≠ [] := by
          intro he
          rw [List.isEmpty_iff] at hemp
          exact hemp (by simpa using he)
        rw [if_neg hne]
        refine ⟨?_, rfl, rfl, rfl, rfl⟩
        rw [List.take_of_length_le
          (by simp only [List.nil_append, List.length_append] at h2 ⊢; omega)]
        simp

/-- The retransmission-due record of the C9 witness. -/
def c9Rec0 : SentPacket :=
  { packet := { v := 3, t := PacketType.D, src := ['A'], dst := ['B'], pn := some 0 },
    timestamp := 0, retries := 1, status := SentStatus.pending }

/-- The fresh pending record of the C9 witness. -/
def c9Rec1 : SentPacket :=
  { packet := { v := 3, t := PacketType.D, src := ['A'], dst := ['B'], pn := some 1 },
    timestamp := 4000, retries := 0, status := SentStatus.pending }

/-- The peer of the C9 witness. -/
def c9Peer : Peer :=
  { id := ['B'], lastSeen := 0, sentPackets := [(some 0, c9Rec0), (some 1, c9Rec1)] }

/-- The state of the C9 witness. -/
def c9State : MeshState := { deviceId := ['A'], peers := [(['B'], c9Peer)] }

/-- Claim C9 witness: at time 5000 with room for 5 packets, the witness
state yields the aged packet then the fresh one, and no tracking state
changes. -/
theorem C9_outgoing_priority_witness :
    (getOutgoingPackets c9State 5000 5).1 =
      (if matchingPackets (retryDueCond 5000 c9State.retryTimeout c9State.maxRetries)
            c9State.peers ++
          matchingPackets (freshCond 5000 c9State.retryTimeout) c9State.peers = []
       then [(createBeacon c9State).1]
       else (matchingPackets (retryDueCond 5000 c9State.retryTimeout c9State.maxRetries)
            c9State.peers ++
          matchingPackets (freshCond 5000 c9State.retryTimeout) c9State.peers).take 5) ∧
    (getOutgoingPackets c9State 5000 5).2.peers = c9State.peers ∧
    (getOutgoingPackets c9State 5000 5).2.globalPn = c9State.globalPn ∧
    (getOutgoingPackets c9State 5000 5).2.packetLog = c9State.packetLog ∧
    (getOutgoingPackets c9State 5000 5).2.chatHistory = c9State.chatHistory :=
  C9_outgoing_priority c9State 5000 5 (by decide)

/-! ## Claim C6: chunking round trip -/

/-- `totalChunks` of `chunkPacket` for an over-long string. -/
def numChunks (s : List Char) : Nat := (s.length + CHUNK_DATA_SIZE - 1) / CHUNK_DATA_SIZE

/-- The `i`-th 4-character data slice taken by `chunkPacket`. -/
def sliceC (s : List Char) (i : Nat) : List Char :=
  (s.drop (i * CHUNK_DATA_SIZE)).take CHUNK_DATA_SIZE

/-- The fed-index set after one frame, in the assembler's reset
discipline: a frame that completes coverage clears the stream. -/
def specStep (N : Nat) (fed : List Nat) (j : Nat) : List Nat :=
  if (List.range N).all fun i => decide (i ∈ j :: fed) then [] else j :: fed

/-- The outputs `addChunk` is expected to produce over a feed sequence:
`some s` exactly when the fed frame completes index coverage (which also
resets the stream), `none` otherwise. -/
def specOuts (s : List Char) (N : Nat) (fed : List Nat) :
    List Nat → List (Option (List Char))
  | [] => []
  | j :: rest =>
    if (List.range N).all fun i => decide (i ∈ j :: fed)
    then some s :: specOuts s N [] rest
    else none :: specOuts s N (j :: fed) rest

/-- The assembler-state invariant while feeding one chunk stream: either
nothing has been fed (fresh assembler), or the single stream buffer holds
exactly the slices of the fed indices and the last-index marker is
present exactly when the final chunk has been fed. -/
def ChunkInv (s : List Char) (sid : Nat) (fed : List Nat) (a : Assembler) : Prop :=
  (fed = [] → a = Assembler.init) ∧
  (fed ≠ [] → ∃ buf, a.streams = [(sid % 36, buf)] ∧
    (∀ i, assocGet buf i = if i ∈ fed then some (sliceC s i) else none) ∧
    a.streamComplete =
      (if numChunks s - 1 ∈ fed then [(sid % 36, numChunks s - 1)] else []))

theorem fromBase36_toBase36 {n : Nat} (h : n < 36) : fromBase36 (toBase36 n) = n := by
  interval_cases n <;> decide

theorem chunkPacket_getD {s : List Char} (hlen : MAX_CHUNK_SIZE < s.length) (sid : Nat)
    {j : Nat} (hj : j < numChunks s) :
    (chunkPacket s sid).getD j [] =
      'F' :: toBase36 (sid % 36) :: toBase36 j ::
        (if j == numChunks s - 1 then 'L' else 'M') :: padTo4 (sliceC s j) := by
  unfold chunkPacket
  rw [if_neg (by omega)]
  rw [List.getD_eq_getElem?_getD, List.getElem?_map]
  rw [show ((List.range ((s.length + CHUNK_DATA_SIZE - 1) / CHUNK_DATA_SIZE))[j]?) =
    some j from List.getElem?_range hj]
  rfl

theorem dropWhile_replicate_space (k : Nat) (t : List Char) :
    (List.replicate k ' ' ++ t).dropWhile isJsSpace = t.dropWhile isJsSpace := by
  induction k with
  | zero => rfl
  | succ m ih =>
    rw [List.replicate_succ, List.cons_append, List.dropWhile_cons_of_pos (by decide), ih]

theorem dropWhile_eq_self_of_clean {l : List Char} (h : ∀ c ∈ l, isJsSpace c = false) :
    l.dropWhile isJsSpace = l := by
  cases l with
  | nil => rfl
  | cons c t =>
    rw [List.dropWhile_cons_of_neg (by rw [h c (by simp)]; exact Bool.false_ne_true)]

theorem trimEnd_of_clean {l : List Char} (h : ∀ c ∈ l, isJsSpace c = false) :
    trimEnd l = l := by
  unfold trimEnd
  rw [dropWhile_eq_self_of_clean fun c hc => h c (List.mem_reverse.mp hc),
    List.reverse_reverse]

theorem trimEnd_padTo4 {l : List Char} (h : ∀ c ∈ l, isJsSpace c = false) :
    trimEnd (padTo4 l) = l := by
  unfold trimEnd padTo4
  rw [List.reverse_append, List.reverse_replicate, dropWhile_replicate_space,
    dropWhile_eq_self_of_clean fun c hc => h c (List.mem_reverse.mp hc),
    List.reverse_reverse]

theorem numChunks_bounds {s : List Char} (h8 : MAX_CHUNK_SIZE < s.length)
    (h144 : s.length ≤ 144) :
    3 ≤ numChunks s ∧ numChunks s ≤ 36 ∧
    (numChunks s - 1) * CHUNK_DATA_SIZE < s.length ∧
    s.length ≤ numChunks s * CHUNK_DATA_SIZE := by
  unfold numChunks CHUNK_DATA_SIZE
  unfold MAX_CHUNK_SIZE at h8
  refine ⟨by omega, by omega, by omega, by omega⟩

theorem sliceC_length {s : List Char} (j : Nat) :
    (sliceC s j).length = min CHUNK_DATA_SIZE (s.length - j * CHUNK_DATA_SIZE) := by
  unfold sliceC
  simp

theorem sliceC_clean {s : List Char} (hsp : ∀ c ∈ s, isJsSpace c = false) (j : Nat) :
    ∀ c ∈ sliceC s j, isJsSpace c = false := by
  intro c hc
  exact hsp c (List.drop_subset _ _ (List.take_subset _ _ hc))

theorem flatten_slices (s : List Char) :
    ∀ m, ((List.range m).map fun i => sliceC s i).flatten =
      s.take (m * CHUNK_DATA_SIZE) := by
  intro m
  induction m with
  | zero => simp
  | succ k ih =>
    rw [List.range_succ, List.map_append, List.flatten_append, ih]
    show _ ++ ([sliceC s k]).flatten = _
    rw [show (k + 1) * CHUNK_DATA_SIZE = k * CHUNK_DATA_SIZE + CHUNK_DATA_SIZE by ring]
    rw [List.take_add]
    unfold sliceC
    simp

theorem parseChunk_at {s : List Char} (h8 : MAX_CHUNK_SIZE < s.length)
    (h144 : s.length ≤ 144) (hsp : ∀ c ∈ s, isJsSpace c = false) (sid : Nat)
    {j : Nat} (hj : j < numChunks s) :
    parseChunk ((chunkPacket s sid).getD j []) =
      some ⟨sid % 36, j, j == numChunks s - 1, sliceC s j⟩ := by
  obtain ⟨hN3, hN36, hNlt, hNle⟩ := numChunks_bounds h8 h144
  rw [chunkPacket_getD h8 sid hj]
  have hlen4 : (padTo4 (sliceC s j)).length = 4 := by
    have hsl := sliceC_length (s := s) j
    unfold padTo4
    rw [List.length_append, List.length_replicate]
    unfold CHUNK_DATA_SIZE at hsl
    omega
  simp only [parseChunk]
  rw [if_pos (by rw [hlen4]; rfl)]
  rw [fromBase36_toBase36 (Nat.mod_lt sid (by omega))]
  rw [fromBase36_toBase36 (by omega)]
  rw [trimEnd_padTo4 (sliceC_clean hsp j)]
  by_cases hjl : j = numChunks s - 1
  · simp [hjl]
  · simp [hjl]

theorem addChunk_step {s : List Char} {sid : Nat} (h8 : MAX_CHUNK_SIZE < s.length)
    (h144 : s.length ≤ 144) (hsp : ∀ c ∈ s, isJsSpace c = false)
    {fed : List Nat} {a : Assembler} (hInv : ChunkInv s sid fed a)
    {j : Nat} (hj : j < numChunks s) :
    ((List.range (numChunks s)).all (fun i => decide (i ∈ j :: fed)) = true →
      addChunk a ((chunkPacket s sid).getD j []) = (Assembler.init, some s)) ∧
    ((List.range (numChunks s)).all (fun i => decide (i ∈ j :: fed)) = false →
      (addChunk a ((chunkPacket s sid).getD j [])).2 = none ∧
      ChunkInv s sid (j :: fed) (addChunk a ((chunkPacket s sid).getD j [])).1) := by
  obtain ⟨hN3, hN36, hNlt, hNle⟩ := numChunks_bounds h8 h144
  have hstream0 : ∀ i, assocGet ((assocGet a.streams (sid % 36)).getD []) i =
      if i ∈ fed then some (sliceC s i) else none := by
    by_cases hf : fed = []
    · subst hf
      rw [hInv.1 rfl]
      intro i
      simp [Assembler.init, assocGet]
    · obtain ⟨buf, hbs, hbg, hsc⟩ := hInv.2 hf
      rw [hbs]
      intro i
      simpa [assocGet] using hbg i
  have hcompl0 : a.streamComplete =
      (if numChunks s - 1 ∈ fed then [(sid % 36, numChunks s - 1)] else []) := by
    by_cases hf : fed = []
    · subst hf
      rw [hInv.1 rfl]
      simp [Assembler.init]
    · obtain ⟨buf, hbs, hbg, hsc⟩ := hInv.2 hf
      exact hsc
  have hstreams' : ∀ v : List (Nat × List Char),
      assocSet a.streams (sid % 36) v = [(sid % 36, v)] := by
    intro v
    by_cases hf : fed = []
    · subst hf
      rw [hInv.1 rfl]
      rfl
    · obtain ⟨buf, hbs, hbg, hsc⟩ := hInv.2 hf
      rw [hbs]
      simp [assocSet]
  have hstream' : ∀ i,
      assocGet (assocSet ((assocGet a.streams (sid % 36)).getD []) j (sliceC s j)) i =
      if i ∈ j :: fed then some (sliceC s i) else none := by
    intro i
    by_cases hij : i = j
    · subst hij
      rw [assocGet_assocSet_self]
      simp
    · rw [assocGet_assocSet_ne _ _ hij, hstream0 i]
      simp [List.mem_cons, hij]
  have hcompl' : (if (j == numChunks s - 1) = true
        then assocSet a.streamComplete (sid % 36) j else a.streamComplete) =
      (if numChunks s - 1 ∈ j :: fed then [(sid % 36, numChunks s - 1)] else []) := by
    by_cases hjl : j = numChunks s - 1
    · rw [if_pos (by simp [hjl])]
      rw [hcompl0]
      rw [hjl]
      rw [if_pos (List.mem_cons_self _ fed)]
      by_cases hm : numChunks s - 1 ∈ fed
      · rw [if_pos hm]
        simp [assocSet]
      · rw [if_neg hm]
        rfl
    · rw [if_neg (by simp [hjl])]
      rw [hcompl0]
      by_cases hm : numChunks s - 1 ∈ fed
      · rw [if_pos hm, if_pos (List.mem_cons_of_mem _ hm)]
      · rw [if_neg hm, if_neg (by
          intro hmem
          rcases List.mem_cons.mp hmem with he | he
          · exact hjl he.symm
          · exact hm he)]
  unfold addChunk
  rw [parseChunk_at h8 h144 hsp sid hj]
  dsimp only
  rw [hcompl']
  by_cases hlastmem : numChunks s - 1 ∈ j :: fed
  · rw [if_pos hlastmem]
    rw [show assocGet [(sid % 36, numChunks s - 1)] (sid % 36) =
      some (numChunks s - 1) by simp [assocGet]]
    dsimp only
    rw [show numChunks s - 1 + 1 = numChunks s by omega]
    have hfun : (fun i => (assocGet (assocSet ((assocGet a.streams (sid % 36)).getD [])
        j (sliceC s j)) i).isSome) = fun i => decide (i ∈ j :: fed) := by
      funext i
      rw [hstream' i]
      by_cases him : i ∈ j :: fed
      · simp [him]
      · simp [him]
    rw [show ((List.range (numChunks s)).all fun i =>
        (assocGet (assocSet ((assocGet a.streams (sid % 36)).getD [])
          j (sliceC s j)) i).isSome) =
        ((List.range (numChunks s)).all fun i => decide (i ∈ j :: fed)) from
      congrArg _ hfun]
    constructor
    · intro hcov
      rw [hcov]
      rw [if_pos rfl]
      rw [hstreams']
      rw [show assocDel [(sid % 36, assocSet ((assocGet a.streams (sid % 36)).getD [])
          j (sliceC s j))] (sid % 36) = [] by simp [assocDel]]
      rw [show assocDel [(sid % 36, numChunks s - 1)] (sid % 36) = [] by simp [assocDel]]
      have hasm : ((List.range (numChunks s)).map fun i =>
          (assocGet (assocSet ((assocGet a.streams (sid % 36)).getD [])
            j (sliceC s j)) i).getD []) =
          (List.range (numChunks s)).map fun i => sliceC s i := by
        apply List.map_congr_left
        intro i hi
        rw [hstream' i,
          if_pos (of_decide_eq_true (List.all_eq_true.mp hcov i hi))]
        rfl
      rw [hasm, flatten_slices s (numChunks s), List.take_of_length_le hNle,
        trimEnd_of_clean hsp]
      rfl
    · intro hncov
      rw [hncov]
      rw [if_neg (by exact Bool.false_ne_true)]
      refine ⟨rfl, ?_, ?_⟩
      · intro hcons
        cases hcons
      · intro _
        refine ⟨assocSet ((assocGet a.streams (sid % 36)).getD []) j (sliceC s j),
          ?_, hstream', ?_⟩
        · show assocSet a.streams (sid % 36) _ = _
          rw [hstreams']
        · show [(sid % 36, numChunks s - 1)] = _
          rw [if_pos hlastmem]
  · rw [if_neg hlastmem]
    rw [show assocGet ([] : List (Nat × Nat)) (sid % 36) = none from rfl]
    dsimp only
    have hncov : ((List.range (numChunks s)).all fun i => decide (i ∈ j :: fed)) = false := by
      cases hb : ((List.range (numChunks s)).all fun i => decide (i ∈ j :: fed)) with
      | false => rfl
      | true =>
        exact absurd (of_decide_eq_true (List.all_eq_true.mp hb _
          (List.mem_range.mpr (by omega)))) hlastmem
    constructor
    · intro hcov
      rw [hcov] at hncov
      cases hncov
    · intro _
      refine ⟨rfl, ?_, ?_⟩
      · intro hcons
        cases hcons
      · intro _
        refine ⟨assocSet ((assocGet a.streams (sid % 36)).getD []) j (sliceC s j),
          ?_, hstream', ?_⟩
        · show assocSet a.streams (sid % 36) _ = _
          rw [hstreams']
        · show ([] : List (Nat × Nat)) = _
          rw [if_neg hlastmem]

theorem feedAll_spec {s : List Char} {sid : Nat} (h8 : MAX_CHUNK_SIZE < s.length)
    (h144 : s.length ≤ 144) (hsp : ∀ c ∈ s, isJsSpace c = false) :
    ∀ (js : List Nat) (fed : List Nat) (a : Assembler),
      (∀ j ∈ js, j < numChunks s) → ChunkInv s sid fed a →
      (feedAll a (js.map fun j => (chunkPacket s sid).getD j [])).2 =
        specOuts s (numChunks s) fed js ∧
      ChunkInv s sid (js.foldl (specStep (numChunks s)) fed)
        (feedAll a (js.map fun j => (chunkPacket s sid).getD j [])).1 := by
  intro js
  induction js with
  | nil =>
    intro fed a hjs hInv
    exact ⟨rfl, hInv⟩
  | cons j rest ih =>
    intro fed a hjs hInv
    have hj : j < numChunks s := hjs j (by simp)
    have hstep := addChunk_step h8 h144 hsp hInv hj
    rw [List.map_cons]
    unfold feedAll
    by_cases hcov : ((List.range (numChunks s)).all fun i => decide (i ∈ j :: fed)) = true
    · have heq := hstep.1 hcov
      rw [heq]
      dsimp only
      have hih := ih [] Assembler.init (fun q hm => hjs q (by simp [hm]))
        ⟨fun _ => rfl, fun hc => absurd rfl hc⟩
      cases hfeq : feedAll Assembler.init (rest.map fun q => (chunkPacket s sid).getD q [])
      rename_i a2 outs
      rw [hfeq] at hih
      dsimp only
      constructor
      · show some s :: outs = specOuts s (numChunks s) fed (j :: rest)
        rw [show specOuts s (numChunks s) fed (j :: rest) =
          (if (List.range (numChunks s)).all (fun i => decide (i ∈ j :: fed)) then
            some s :: specOuts s (numChunks s) [] rest
          else none :: specOuts s (numChunks s) (j :: fed) rest) from rfl]
        rw [if_pos hcov]
        exact congrArg _ hih.1
      · rw [List.foldl_cons]
        rw [show specStep (numChunks s) fed j = [] by unfold specStep; rw [if_pos hcov]]
        exact hih.2
    · have hf : ((List.range (numChunks s)).all fun i => decide (i ∈ j :: fed)) = false := by
        cases hb : ((List.range (numChunks s)).all fun i => decide (i ∈ j :: fed)) with
        | false => rfl
        | true => exact absurd hb hcov
      have h2 := hstep.2 hf
      cases haeq : addChunk a ((chunkPacket s sid).getD j [])
      rename_i a1 out
      rw [haeq] at h2
      have hout : out = none := h2.1
      subst hout
      have hinv' : ChunkInv s sid (j :: fed) a1 := h2.2
      dsimp only
      have hih := ih (j :: fed) a1 (fun q hm => hjs q (by simp [hm])) hinv'
      cases hfeq : feedAll a1 (rest.map fun q => (chunkPacket s sid).getD q [])
      rename_i a2 outs
      rw [hfeq] at hih
      dsimp only
      constructor
      · show none :: outs = specOuts s (numChunks s) fed (j :: rest)
        rw [show specOuts s (numChunks s) fed (j :: rest) =
          (if (List.range (numChunks s)).all (fun i => decide (i ∈ j :: fed)) then
            some s :: specOuts s (numChunks s) [] rest
          else none :: specOuts s (numChunks s) (j :: fed) rest) from rfl]
        rw [if_neg (by rw [hf]; exact Bool.false_ne_true)]
        exact congrArg _ hih.1
      · rw [List.foldl_cons]
        rw [show specStep (numChunks s) fed j = j :: fed by
          unfold specStep; rw [if_neg (by rw [hf]; exact Bool.false_ne_true)]]
        exact hih.2

/-- Claim C6 (amended): chunk round trip.  For a string longer than one
frame, at most 36 chunks (length ≤ 144) and free of the whitespace that
per-chunk `trimEnd` strips, feeding any sequence of its chunk frames —
any order, duplicates allowed — reproduces the reference behaviour
`specOuts`: `addChunk` returns nothing while the stream's index coverage
is incomplete, returns exactly `s` at each instant a frame completes
coverage of every index `0..last`, and at those instants (and only
through them) the stream's buffer is cleared back to the fresh
assembler. -/
theorem C6_chunk_reassembly (s : List Char) (sid : Nat)
    (h8 : MAX_CHUNK_SIZE < s.length) (h144 : s.length ≤ 144)
    (hsp : ∀ c ∈ s, isJsSpace c = false) (js : List Nat)
    (hjs : ∀ j ∈ js, j < numChunks s) :
    (feedAll Assembler.init (js.map fun j => (chunkPacket s sid).getD j [])).2 =
      specOuts s (numChunks s) [] js ∧
    ∀ k, (js.take k).foldl (specStep (numChunks s)) [] = [] →
      (feedAll Assembler.init ((js.take k).map fun j =>
        (chunkPacket s sid).getD j [])).1 = Assembler.init := by
  constructor
  · exact (feedAll_spec h8 h144 hsp js [] Assembler.init hjs
      ⟨fun _ => rfl, fun hc => absurd rfl hc⟩).1
  · intro k hk
    have h := (@feedAll_spec s sid h8 h144 hsp (js.take k) [] Assembler.init
      (fun j hm => hjs j (List.take_subset _ _ hm))
      ⟨fun _ => rfl, fun hc => absurd rfl hc⟩).2
    rw [hk] at h
    exact h.1 rfl

/-- Claim C6 witness: the 9-character string `"ABCDEFGHI"` is cut into 3
chunks; fed in the order 2, 0, 1, 1 (out of order, with a duplicate
after completion) the assembler answers none, none, the full string,
none — matching `specOuts` — and the buffer is reset exactly at the
covering instants. -/
theorem C6_chunk_reassembly_witness :
    (feedAll Assembler.init ([2, 0, 1, 1].map fun j =>
      (chunkPacket ['A', 'B', 'C', 'D', 'E', 'F', 'G', 'H', 'I'] 7).getD j [])).2 =
      specOuts ['A', 'B', 'C', 'D', 'E', 'F', 'G', 'H', 'I']
        (numChunks ['A', 'B', 'C', 'D', 'E', 'F', 'G', 'H', 'I']) [] [2, 0, 1, 1] ∧
    ∀ k, ([2, 0, 1, 1].take k).foldl
        (specStep (numChunks ['A', 'B', 'C', 'D', 'E', 'F', 'G', 'H', 'I'])) [] = [] →
      (feedAll Assembler.init (([2, 0, 1, 1].take k).map fun j =>
        (chunkPacket ['A', 'B', 'C', 'D', 'E', 'F', 'G', 'H', 'I'] 7).getD j [])).1 =
          Assembler.init :=
  C6_chunk_reassembly ['A', 'B', 'C', 'D', 'E', 'F', 'G', 'H', 'I'] 7 (by decide)
    (by decide) (by decide) [2, 0, 1, 1] (by decide)

/-- Claim C6 counterexample: the 9-character string `"AB  CDEFG"` (with
two interior spaces at a chunk boundary) is chunked and fed back in
order, yet reassembles to `"ABCDEFG"`, not the original: `parseChunk`
trims each chunk's data with `trimEnd`, destroying data spaces that land
at a chunk's end. -/
theorem C6_trim_corrupts :
    (feedAll Assembler.init
      (chunkPacket ['A', 'B', ' ', ' ', 'C', 'D', 'E', 'F', 'G'] 0)).2 =
      [none, none, some ['A', 'B', 'C', 'D', 'E', 'F', 'G']] ∧
    ['A', 'B', 'C', 'D', 'E', 'F', 'G'] ≠ ['A', 'B', ' ', ' ', 'C', 'D', 'E', 'F', 'G'] := by
  decide

end QrMesh
